import Mathlib

/-! Field normalisation and merging in the `logger` package.

A shallow embedding of `logger/context.go` (`mergeFields`, `AddKV`,
`getKvsFromContext`, `FromContext`), `logger/field_merger.go` (`sweetenFields`,
`mergeKvs`) and `logger/logger.go` (the leveled functions), followed by theorems about
them.

Modelling conventions.
* A Go slice `[]any` is a `List Any`; a `nil` slice and an empty slice are both `[]`.
* A failed single-value type assertion (a run-time panic in Go) is `none`.
* Calls of `m.logger.Error` are collected, in call order, in a list of `LoggedEntry`.
-/

namespace Logger

/-! ## Values -/

mutual
/-- A Go value of interface type `any`, as far as the type assertions of the package
tell values apart: a `zap.Field`, a value implementing `error`, a `string`, or
something else (`nil`, booleans and integers stand for all other values). -/
inductive Any where
  | nil
  | bool (b : Bool)
  | int (n : Int)
  | str (s : String)
  | error (msg : String)
  | field (f : Field)
/-- A `zap.Field`: its key together with the value it carries. -/
inductive Field where
  | mk (Key : String) (Interface : Any)
end

deriving instance DecidableEq for Any, Field

/-- The `Key` of a `zap.Field`. -/
def Field.Key : Field → String
  | .mk k _ => k

/-- The value carried by a `zap.Field`. -/
def Field.Interface : Field → Any
  | .mk _ v => v

/-- The constructor `zap.Any(key, val)`: the value is stored as it is. -/
def zapAny (key : String) (val : Any) : Field := .mk key val

/-- The constructor `zap.Error(err)`, which is `zap.NamedError("error", err)`. -/
def zapError (err : Any) : Field := .mk "error" err

/-- The type assertion `v.(zap.Field)`. -/
def Any.asField : Any → Option Field
  | .field f => some f
  | _ => none

/-- The type assertion `v.(error)`; the result is the same value, seen as an `error`. -/
def Any.asError : Any → Option Any
  | .error msg => some (.error msg)
  | _ => none

/-- The type assertion `v.(string)`. -/
def Any.asString : Any → Option String
  | .str s => some s
  | _ => none

/-! ## `mergeFields` (context.go) -/

/-- The inner loop `for j := range merged` of `mergeFields`: every entry is asserted to be
a `zap.Field`, every entry with the key of `newField` is overwritten, and the flag
`wasFieldFromContextReplaced` (initial value `replaced`) is set when that happens. -/
def replaceLoop (newField : Field) : List Any → Bool → Option (List Any × Bool)
  | [], replaced => some ([], replaced)
  | old :: rest, replaced =>
    match old.asField with
    | none => none
    | some oldField =>
      if oldField.Key = newField.Key then
        (replaceLoop newField rest true).map (fun r => (Any.field newField :: r.1, r.2))
      else
        (replaceLoop newField rest replaced).map (fun r => (old :: r.1, r.2))

/-- The outer loop `for i := 0; i < len(fieldsFromCaller); i++` of `mergeFields`,
run on the remaining caller fields with the current value of `merged`. -/
def mergeLoop : List Any → List Any → Option (List Any)
  | [], merged => some merged
  | new :: rest, merged =>
    match new.asField with
    | none => none
    | some newField =>
      match replaceLoop newField merged false with
      | none => none
      | some (merged1, wasFieldFromContextReplaced) =>
        if !wasFieldFromContextReplaced then
          mergeLoop rest (merged1 ++ [Any.field newField])
        else
          mergeLoop rest merged1

/-- The function `mergeFields(filedFromContext, fieldsFromCaller)`: `merged` starts as a
copy of the context fields and the caller fields are folded into it. -/
def mergeFields (filedFromContext fieldsFromCaller : List Any) : Option (List Any) :=
  mergeLoop fieldsFromCaller filedFromContext

/-! ## `sweetenFields` (field_merger.go) -/

/-- The struct `invalidPair`. -/
structure invalidPair where
  position : Nat
  key : Any
  value : Any
deriving DecidableEq

/-- The type `invalidPairs`. -/
abbrev invalidPairs := List invalidPair

/-- The constant `errMsgOddNumber`. -/
def errMsgOddNumber : String := "Ignored key without a value."

/-- The constant `errMsgNonStringKey`. -/
def errMsgNonStringKey : String := "Ignored key-value pairs with non-string keys."

/-- The constant `errMsgMultiple`. -/
def errMsgMultiple : String := "Multiple errors without a key."

/-- The field handed to `m.logger.Error` next to the message: an ordinary field, or
`zap.Array(key, pairs)` holding the invalid pairs. -/
inductive LogField where
  | plain (f : Field)
  | array (key : String) (pairs : invalidPairs)
deriving DecidableEq

/-- One call `m.logger.Error(Message, Context)`. -/
structure LoggedEntry where
  Message : String
  Context : LogField
deriving DecidableEq

/-- The local variables of `sweetenFields` together with the entries logged so far. -/
structure SweetenState where
  fields : List Any
  invalid : invalidPairs
  seenError : Bool
  logs : List LoggedEntry
deriving DecidableEq

/-- The loop `for i := 0; i < len(args); { ... }` of `sweetenFields`, at index `i` with
`args[i:]` still to be read. -/
def sweetenLoop : Nat → List Any → SweetenState → SweetenState
  | _, [], st => st
  | i, cur :: rest, st =>
    match cur.asField with
    | some f => sweetenLoop (i + 1) rest { st with fields := st.fields ++ [Any.field f] }
    | none =>
      match cur.asError with
      | some err =>
        if !st.seenError then
          sweetenLoop (i + 1) rest
            { st with seenError := true, fields := st.fields ++ [Any.field (zapError err)] }
        else
          sweetenLoop (i + 1) rest
            { st with logs := st.logs ++ [⟨errMsgMultiple, .plain (zapError err)⟩] }
      | none =>
        match rest with
        | [] => { st with logs := st.logs ++ [⟨errMsgOddNumber, .plain (zapAny "ignored" cur)⟩] }
        | val :: rest2 =>
          match cur.asString with
          | none => sweetenLoop (i + 2) rest2 { st with invalid := st.invalid ++ [⟨i, cur, val⟩] }
          | some keyStr =>
            sweetenLoop (i + 2) rest2
              { st with fields := st.fields ++ [Any.field (zapAny keyStr val)] }

/-- What `sweetenFields` returns, with the entries it logged. -/
structure SweetenResult where
  fields : List Any
  logs : List LoggedEntry
deriving DecidableEq

/-- The method `(*fieldMerger).sweetenFields(args)`. -/
def sweetenFields (args : List Any) : SweetenResult :=
  if args.length = 0 then
    ⟨[], []⟩
  else
    let st := sweetenLoop 0 args ⟨[], [], false, []⟩
    if st.invalid.length > 0 then
      ⟨st.fields, st.logs ++ [⟨errMsgNonStringKey, .array "invalid" st.invalid⟩]⟩
    else
      ⟨st.fields, st.logs⟩

/-! ## Contexts: `getKvsFromContext`, `AddKV`, `mergeKvs` -/

/-- A `context.Context`, reduced to the value stored under `logFieldKey`
(`none` when no value is stored). -/
structure Context where
  logFields : Option (List Any)
deriving DecidableEq

/-- The root context `context.Background()`: nothing is stored. -/
def background : Context := ⟨none⟩

/-- The function `getKvsFromContext(ctx)`: a copy of the stored slice, or `nil`. -/
def getKvsFromContext (ctx : Context) : List Any :=
  match ctx.logFields with
  | some kvs => kvs
  | none => []

/-- The function `AddKV(ctx, kvs...)`; the diagnostics of the global merger are those of
`sweetenFields kvs`. -/
def AddKV (ctx : Context) (kvs : List Any) : Option Context :=
  if kvs.length = 0 then
    some ctx
  else
    let kvsFromContext := getKvsFromContext ctx
    let additionalFields := (sweetenFields kvs).fields
    (mergeFields kvsFromContext additionalFields).map (fun merged => ⟨some merged⟩)

/-- The function `mergeKvs(ctx, otherKVs...)`; the diagnostics of the global merger are
those of `sweetenFields otherKVs`. -/
def mergeKvs (ctx : Context) (otherKVs : List Any) : Option (List Any) :=
  let kvsFromContext := getKvsFromContext ctx
  if kvsFromContext.length = 0 then
    some (sweetenFields otherKVs).fields
  else
    mergeFields kvsFromContext (sweetenFields otherKVs).fields

/-- A chain of calls `AddKV(... AddKV(AddKV(ctx, calls[0]...), calls[1]...) ..., calls[n-1]...)`. -/
def addKVs : Context → List (List Any) → Option Context
  | ctx, [] => some ctx
  | ctx, kvs :: calls =>
    match AddKV ctx kvs with
    | none => none
    | some ctx1 => addKVs ctx1 calls

/-! ## Auxiliary notions used in the statements -/

/-- One round of the outer loop of `mergeFields` on typed fields: a field whose key is
already present overwrites every entry with that key, any other field is appended. -/
def mergeStep (merged : List Field) (newField : Field) : List Field :=
  if merged.any (fun o => o.Key = newField.Key) then
    merged.map (fun o => if o.Key = newField.Key then newField else o)
  else
    merged ++ [newField]

/-- The last field of `fs` whose key is `n`. -/
def lastNamed (n : String) (fs : List Field) : Option Field :=
  (fs.filter (fun g => g.Key = n)).getLast?

/-- The elements of a list of names, each exactly once, in order of first occurrence. -/
def firstOccurrences : List String → List String
  | [] => []
  | n :: ns => n :: (firstOccurrences ns).filter (fun m => m ≠ n)

/-- What the scan of `sweetenFields` reads in one iteration, with the index `pos` of the
current item: a typed field, an error, a key with the value after it, or a last element
that is left without a value. -/
inductive ScanItem where
  | typed (pos : Nat) (f : Field)
  | err (pos : Nat) (e : Any)
  | pair (pos : Nat) (key val : Any)
  | orphan (pos : Nat) (x : Any)
deriving DecidableEq

/-- The iterations of the loop of `sweetenFields` started at index `i` on `args[i:]`, in
order: how the scan cuts the argument list into items. -/
def scanItems : Nat → List Any → List ScanItem
  | _, [] => []
  | i, cur :: rest =>
    match cur.asField with
    | some f => .typed i f :: scanItems (i + 1) rest
    | none =>
      match cur.asError with
      | some err => .err i err :: scanItems (i + 1) rest
      | none =>
        match rest with
        | [] => [.orphan i cur]
        | val :: rest2 => .pair i cur val :: scanItems (i + 2) rest2

/-- The index of the current item of an iteration. -/
def ScanItem.pos : ScanItem → Nat
  | .typed p _ => p
  | .err p _ => p
  | .pair p _ _ => p
  | .orphan p _ => p

/-- The elements of the argument list read in an iteration. -/
def ScanItem.args : ScanItem → List Any
  | .typed _ f => [Any.field f]
  | .err _ e => [e]
  | .pair _ k v => [k, v]
  | .orphan _ x => [x]

/-- The error met as the current item, if the iteration met one. -/
def ScanItem.error? : ScanItem → Option Any
  | .err _ e => some e
  | _ => none

/-- The field an iteration contributes when it is not an error: a typed field itself, the
field built by `zap.Any` from a string key and its value, and nothing otherwise. -/
def ScanItem.plainFields : ScanItem → List Any
  | .typed _ f => [Any.field f]
  | .pair _ k v =>
    match k.asString with
    | some keyStr => [Any.field (zapAny keyStr v)]
    | none => []
  | _ => []

/-- The invalid pair recorded for an iteration: a pair whose key is not a string. -/
def ScanItem.invalid? : ScanItem → Option invalidPair
  | .pair p k v =>
    match k.asString with
    | some _ => none
    | none => some ⟨p, k, v⟩
  | _ => none

/-- An item of a well-formed argument list: a typed field, or a string key followed by
a value. -/
inductive Item where
  | typed (f : Field)
  | pair (key : String) (val : Any)
deriving DecidableEq

/-- The arguments an item of a well-formed list stands for. -/
def Item.args : Item → List Any
  | .typed f => [Any.field f]
  | .pair k v => [Any.str k, v]

/-- The field an item of a well-formed list denotes. -/
def Item.field : Item → Field
  | .typed f => f
  | .pair k v => zapAny k v

/-- The effect of one iteration of the loop of `sweetenFields` on its local variables
and on the log, read off the item the iteration consumed. -/
def stepItem (st : SweetenState) : ScanItem → SweetenState
  | .typed _ f => { st with fields := st.fields ++ [Any.field f] }
  | .err _ e =>
    if st.seenError = false then
      { st with seenError := true, fields := st.fields ++ [Any.field (zapError e)] }
    else
      { st with logs := st.logs ++ [⟨errMsgMultiple, .plain (zapError e)⟩] }
  | .pair p k v =>
    match k.asString with
    | none => { st with invalid := st.invalid ++ [⟨p, k, v⟩] }
    | some keyStr => { st with fields := st.fields ++ [Any.field (zapAny keyStr v)] }
  | .orphan _ x =>
    { st with logs := st.logs ++ [⟨errMsgOddNumber, .plain (zapAny "ignored" x)⟩] }

/-- The diagnostic `errMsgMultiple` logged for an error. -/
def multipleEntry (e : Any) : LoggedEntry := ⟨errMsgMultiple, .plain (zapError e)⟩

/-- The diagnostic `errMsgOddNumber` logged for an element without a value. -/
def oddNumberEntry (x : Any) : LoggedEntry := ⟨errMsgOddNumber, .plain (zapAny "ignored" x)⟩

/-- The diagnostic `errMsgNonStringKey` logged for a list of invalid pairs. -/
def nonStringKeyEntry (invalid : invalidPairs) : LoggedEntry :=
  ⟨errMsgNonStringKey, .array "invalid" invalid⟩

/-- The element left without a value, if the iteration met one. -/
def ScanItem.orphan? : ScanItem → Option Any
  | .orphan _ x => some x
  | _ => none

/-! ## The loop of `sweetenFields`, read by index -/

/-- The loop `for i := 0; i < len(args); { ... }` of `sweetenFields` with every read
`args[i]` and `args[i+1]` made by index, as in the source; `none` stands for an index out
of range, or for a loop that has not ended after `fuel` iterations. -/
def sweetenIndexed (args : List Any) : Nat → Nat → SweetenState → Option SweetenState
  | 0, _, _ => none
  | fuel + 1, i, st =>
    if i < args.length then
      match args[i]? with
      | none => none
      | some cur =>
        match cur.asField with
        | some f =>
          sweetenIndexed args fuel (i + 1) { st with fields := st.fields ++ [Any.field f] }
        | none =>
          match cur.asError with
          | some err =>
            if !st.seenError then
              sweetenIndexed args fuel (i + 1)
                { st with seenError := true,
                          fields := st.fields ++ [Any.field (zapError err)] }
            else
              sweetenIndexed args fuel (i + 1)
                { st with logs := st.logs ++ [⟨errMsgMultiple, .plain (zapError err)⟩] }
          | none =>
            if i = args.length - 1 then
              some { st with
                logs := st.logs ++ [⟨errMsgOddNumber, .plain (zapAny "ignored" cur)⟩] }
            else
              match args[i + 1]? with
              | none => none
              | some val =>
                match cur.asString with
                | none =>
                  sweetenIndexed args fuel (i + 2)
                    { st with invalid := st.invalid ++ [⟨i, cur, val⟩] }
                | some keyStr =>
                  sweetenIndexed args fuel (i + 2)
                    { st with fields := st.fields ++ [Any.field (zapAny keyStr val)] }
    else
      some st

/-! ## Loggers and the leveled functions (logger.go) -/

/-- A `zapcore.Level`. -/
abbrev Level := Int

/-- The level `zapcore.DebugLevel`. -/
def DebugLevel : Level := -1

/-- The level `zapcore.InfoLevel`. -/
def InfoLevel : Level := 0

/-- The level `zapcore.WarnLevel`. -/
def WarnLevel : Level := 1

/-- The level `zapcore.ErrorLevel`. -/
def ErrorLevel : Level := 2

/-- The level `zapcore.PanicLevel`. -/
def PanicLevel : Level := 4

/-- The level `zapcore.FatalLevel`. -/
def FatalLevel : Level := 5

/-- The method `l.Enabled(lvl)` of `zapcore.Level`: `lvl >= l`. -/
def Enabled (l lvl : Level) : Bool := decide (l ≤ lvl)

/-- One argument as a variadic method of the logger receives it: a value passed on its
own, or a whole slice `[]interface{}` passed as a single value. -/
inductive Arg where
  | val (v : Any)
  | slice (vs : List Any)
deriving DecidableEq

/-- A call of a method of `*zap.SugaredLogger`: `Debug(args...)` and its siblings,
`Debugf(template, args...)` and its siblings, `Debugw(msg, keysAndValues...)` and its
siblings, with the level of the method. -/
inductive LogCall where
  | print (lvl : Level) (args : List Arg)
  | printf (lvl : Level) (template : String) (args : List Arg)
  | printw (lvl : Level) (msg : String) (keysAndValues : List Arg)
deriving DecidableEq

/-- The level of the method called. -/
def LogCall.lvl : LogCall → Level
  | .print l _ => l
  | .printf l _ _ => l
  | .printw l _ _ => l

/-- The arguments the method receives after the template or message. -/
def LogCall.args : LogCall → List Arg
  | .print _ a => a
  | .printf _ _ a => a
  | .printw _ _ a => a

/-- A `*zap.SugaredLogger`: its level threshold and the fields added to it by `With`. -/
structure SugaredLogger where
  level : Level
  context : List Field
deriving DecidableEq

/-- A record written by a logger: the call that produced it and the fields of the logger. -/
structure Record where
  call : LogCall
  context : List Field
deriving DecidableEq

/-- Modelled from the spec: the logging backend (zap, not part of the repository) with its
level gating, "a simple enabled/disabled threshold check": a logger handed a call writes
one record when the level of the call is enabled at its threshold, and none otherwise. -/
def SugaredLogger.write (l : SugaredLogger) (c : LogCall) : List Record :=
  if Enabled l.level c.lvl then [⟨c, l.context⟩] else []

/-- A `context.Context` as logger.go reads it: the logger stored by `ToContext` (if any),
the trace and span identifiers of a valid span (if any), and the value stored under
`logFieldKey`. -/
structure LoggerContext where
  logger : Option SugaredLogger
  span : Option (String × String)
  kvs : Context
deriving DecidableEq

/-- The function `getLogger(ctx)`: the logger of the context, else the global logger. -/
def getLogger (global : SugaredLogger) (ctx : LoggerContext) : SugaredLogger :=
  match ctx.logger with
  | some logger => logger
  | none => global

/-- The function `loggerWithSpanContext(l, spanCtx)`. -/
def loggerWithSpanContext (l : SugaredLogger) (traceID spanID : String) : SugaredLogger :=
  { l with context := l.context ++
      [Field.mk "trace_id" (Any.str traceID), Field.mk "span_id" (Any.str spanID)] }

/-- The function `FromContext(ctx)`. -/
def FromContext (global : SugaredLogger) (ctx : LoggerContext) : SugaredLogger :=
  let l := getLogger global ctx
  match ctx.span with
  | some (traceID, spanID) => loggerWithSpanContext l traceID spanID
  | none => l

/-- The function `Debug(ctx, args...)`: the calls it makes on the logger of the context. -/
def Debug (global : SugaredLogger) (ctx : LoggerContext) (args : List Any) : List LogCall :=
  let l := FromContext global ctx
  if Enabled l.level DebugLevel then [LogCall.print DebugLevel (args.map Arg.val)] else []

/-- The function `Debugf(ctx, format, args...)`. -/
def Debugf (global : SugaredLogger) (ctx : LoggerContext) (format : String)
    (args : List Any) : List LogCall :=
  let l := FromContext global ctx
  if Enabled l.level DebugLevel then [LogCall.printf DebugLevel format (args.map Arg.val)]
  else []

/-- The function `DebugKV(ctx, message, kvs...)`; `none` when `mergeKvs` fails. -/
def DebugKV (global : SugaredLogger) (ctx : LoggerContext) (message : String)
    (kvs : List Any) : Option (List LogCall) :=
  let l := FromContext global ctx
  if Enabled l.level DebugLevel then
    (mergeKvs ctx.kvs kvs).map (fun m => [LogCall.printw DebugLevel message (m.map Arg.val)])
  else some []

/-- The function `Info(ctx, args...)`. -/
def Info (global : SugaredLogger) (ctx : LoggerContext) (args : List Any) : List LogCall :=
  let l := FromContext global ctx
  if Enabled l.level InfoLevel then [LogCall.print InfoLevel (args.map Arg.val)] else []

/-- The function `Infof(ctx, format, args...)`. -/
def Infof (global : SugaredLogger) (ctx : LoggerContext) (format : String)
    (args : List Any) : List LogCall :=
  let l := FromContext global ctx
  if Enabled l.level InfoLevel then [LogCall.printf InfoLevel format (args.map Arg.val)]
  else []

/-- The function `InfoKV(ctx, message, kvs...)`; `none` when `mergeKvs` fails. -/
def InfoKV (global : SugaredLogger) (ctx : LoggerContext) (message : String)
    (kvs : List Any) : Option (List LogCall) :=
  let l := FromContext global ctx
  if Enabled l.level InfoLevel then
    (mergeKvs ctx.kvs kvs).map (fun m => [LogCall.printw InfoLevel message (m.map Arg.val)])
  else some []

/-- The function `Warn(ctx, args...)`. -/
def Warn (global : SugaredLogger) (ctx : LoggerContext) (args : List Any) : List LogCall :=
  let l := FromContext global ctx
  if Enabled l.level WarnLevel then [LogCall.print WarnLevel (args.map Arg.val)] else []

/-- The function `Warnf(ctx, format, args...)`. -/
def Warnf (global : SugaredLogger) (ctx : LoggerContext) (format : String)
    (args : List Any) : List LogCall :=
  let l := FromContext global ctx
  if Enabled l.level WarnLevel then [LogCall.printf WarnLevel format (args.map Arg.val)]
  else []

/-- The function `WarnKV(ctx, message, kvs...)`; `none` when `mergeKvs` fails. -/
def WarnKV (global : SugaredLogger) (ctx : LoggerContext) (message : String)
    (kvs : List Any) : Option (List LogCall) :=
  let l := FromContext global ctx
  if Enabled l.level WarnLevel then
    (mergeKvs ctx.kvs kvs).map (fun m => [LogCall.printw WarnLevel message (m.map Arg.val)])
  else some []

/-- The function `Error(ctx, args...)`. -/
def Error (global : SugaredLogger) (ctx : LoggerContext) (args : List Any) : List LogCall :=
  let l := FromContext global ctx
  if Enabled l.level ErrorLevel then [LogCall.print ErrorLevel (args.map Arg.val)] else []

/-- The function `Errorf(ctx, format, args...)`. -/
def Errorf (global : SugaredLogger) (ctx : LoggerContext) (format : String)
    (args : List Any) : List LogCall :=
  let l := FromContext global ctx
  if Enabled l.level ErrorLevel then [LogCall.printf ErrorLevel format (args.map Arg.val)]
  else []

/-- The function `ErrorKV(ctx, message, kvs...)`; `none` when `mergeKvs` fails. -/
def ErrorKV (global : SugaredLogger) (ctx : LoggerContext) (message : String)
    (kvs : List Any) : Option (List LogCall) :=
  let l := FromContext global ctx
  if Enabled l.level ErrorLevel then
    (mergeKvs ctx.kvs kvs).map (fun m => [LogCall.printw ErrorLevel message (m.map Arg.val)])
  else some []

/-- The function `Fatalf(ctx, format, args...)`: it calls `Fatalf(format, args)`, the
slice `args` being passed as one value. -/
def Fatalf (_global : SugaredLogger) (_ctx : LoggerContext) (format : String)
    (args : List Any) : List LogCall :=
  [LogCall.printf FatalLevel format [Arg.slice args]]

/-- The function `Panicf(ctx, format, args...)`: it calls `Panicf(format, args...)`. -/
def Panicf (_global : SugaredLogger) (_ctx : LoggerContext) (format : String)
    (args : List Any) : List LogCall :=
  [LogCall.printf PanicLevel format (args.map Arg.val)]

/-- The number of records the logger of the context writes for the calls made on it. -/
def emitted (global : SugaredLogger) (ctx : LoggerContext) (calls : List LogCall) : Nat :=
  (calls.flatMap (FromContext global ctx).write).length

/-! ## `mergeFields` on typed fields -/

theorem replaceLoop_typed (newField : Field) (merged : List Field) (replaced : Bool) :
    replaceLoop newField (merged.map Any.field) replaced =
      some ((merged.map (fun o => if o.Key = newField.Key then newField else o)).map Any.field,
        replaced || merged.any (fun o => o.Key = newField.Key)) := by
  induction merged generalizing replaced with
  | nil => simp [replaceLoop]
  | cons o rest ih =>
    by_cases h : o.Key = newField.Key
    · simp [replaceLoop, Any.asField, h, ih]
    · simp [replaceLoop, Any.asField, h, ih]

theorem mergeLoop_typed (caller merged : List Field) :
    mergeLoop (caller.map Any.field) (merged.map Any.field) =
      some ((caller.foldl mergeStep merged).map Any.field) := by
  induction caller generalizing merged with
  | nil => simp [mergeLoop]
  | cons g rest ih =>
    by_cases h : merged.any (fun o => o.Key = g.Key) = true
    · have := ih (merged.map (fun o => if o.Key = g.Key then g else o))
      simpa [mergeLoop, Any.asField, replaceLoop_typed, mergeStep, h] using this
    · have := ih (merged ++ [g])
      have hm : (merged.map (fun o => if o.Key = g.Key then g else o)) = merged := by
        simp only [List.any_eq_true, decide_eq_true_eq, not_exists, not_and] at h
        conv_rhs => rw [← List.map_id merged]
        apply List.map_congr_left
        intro o ho
        simp [h o ho]
      simp only [Bool.not_eq_true] at h
      simp [mergeLoop, Any.asField, replaceLoop_typed, mergeStep, h, hm] at this ⊢
      simpa [h] using this

theorem mergeFields_typed (c f : List Field) :
    mergeFields (c.map Any.field) (f.map Any.field) =
      some ((f.foldl mergeStep c).map Any.field) :=
  mergeLoop_typed f c

theorem mem_mergeStep_same (m : List Field) (g e : Field) (he : e ∈ mergeStep m g)
    (hk : e.Key = g.Key) : e = g := by
  unfold mergeStep at he
  split at he
  · rw [List.mem_map] at he
    obtain ⟨o, _, ho⟩ := he
    by_cases h : o.Key = g.Key
    · simp [h] at ho; exact ho.symm
    · simp [h] at ho; subst ho; exact absurd hk h
  · rename_i hany
    rw [List.mem_append] at he
    rcases he with he | he
    · exact absurd (List.any_eq_true.mpr ⟨e, he, by simpa using hk⟩) hany
    · simpa using he

theorem getElem?_mergeStep_other (m : List Field) (g e : Field) (i : Nat)
    (he : (mergeStep m g)[i]? = some e) (hk : e.Key ≠ g.Key) : m[i]? = some e := by
  unfold mergeStep at he
  split at he
  · rw [List.getElem?_map] at he
    cases hm : m[i]? with
    | none => simp [hm] at he
    | some o =>
      simp only [hm, Option.map_some', Option.some.injEq] at he
      by_cases h : o.Key = g.Key
      · simp [h] at he; subst he; exact absurd rfl hk
      · simp [h] at he; subst he; rfl
  · rw [List.getElem?_append] at he
    split at he
    · exact he
    · rename_i hlt
      have : i - m.length = 0 ∨ 0 < i - m.length := Nat.eq_zero_or_pos _
      rcases this with h0 | h0
      · simp [h0] at he; subst he; exact absurd rfl hk
      · have : ([g] : List Field)[i - m.length]? = none := by
          apply List.getElem?_eq_none; simp only [List.length_singleton]; omega
        rw [this] at he; cases he

theorem mem_mergeStep_self (m : List Field) (g : Field) : g ∈ mergeStep m g := by
  unfold mergeStep
  split
  · rename_i hany
    obtain ⟨o, ho, hk⟩ := List.any_eq_true.mp hany
    exact List.mem_map.mpr ⟨o, ho, by simp only [decide_eq_true_eq] at hk; simp [hk]⟩
  · simp

theorem keys_mergeStep (m : List Field) (g : Field) :
    (mergeStep m g).map Field.Key =
      if g.Key ∈ m.map Field.Key then m.map Field.Key else m.map Field.Key ++ [g.Key] := by
  unfold mergeStep
  by_cases h : m.any (fun o => o.Key = g.Key) = true
  · have hin : g.Key ∈ m.map Field.Key := by
      obtain ⟨o, ho, hk⟩ := List.any_eq_true.mp h
      exact List.mem_map.mpr ⟨o, ho, by simpa using hk⟩
    rw [if_pos h, if_pos hin, List.map_map]
    apply List.map_congr_left
    intro o _
    by_cases hk : o.Key = g.Key <;> simp [hk]
  · have hin : g.Key ∉ m.map Field.Key := by
      intro hmem
      obtain ⟨o, ho, hk⟩ := List.mem_map.mp hmem
      exact h (List.any_eq_true.mpr ⟨o, ho, by simpa using hk⟩)
    rw [if_neg h, if_neg hin]
    simp

theorem lastNamed_concat (n : String) (fs : List Field) (g : Field) :
    lastNamed n (fs ++ [g]) = if g.Key = n then some g else lastNamed n fs := by
  unfold lastNamed
  by_cases h : g.Key = n
  · simp [List.filter_append, h]
  · simp [List.filter_append, h]

theorem foldl_mergeStep_last (cs f : List Field) :
    ∀ e ∈ f.foldl mergeStep cs, e.Key ∈ f.map Field.Key → lastNamed e.Key f = some e := by
  induction f using List.reverseRecOn with
  | nil => intro e _ h; simp at h
  | append_singleton f g ih =>
    intro e he hk
    rw [List.foldl_append, List.foldl_cons, List.foldl_nil] at he
    rw [lastNamed_concat]
    by_cases hg : g.Key = e.Key
    · rw [if_pos hg, mem_mergeStep_same _ g e he hg.symm]
    · rw [if_neg hg]
      have hne : e.Key ≠ g.Key := fun h => hg h.symm
      obtain ⟨i, hi⟩ := List.mem_iff_getElem?.mp he
      have hmem : e ∈ f.foldl mergeStep cs :=
        List.mem_iff_getElem?.mpr ⟨i, getElem?_mergeStep_other _ g e i hi hne⟩
      apply ih e hmem
      simp only [List.map_append, List.map_cons, List.map_nil, List.mem_append,
        List.mem_singleton] at hk
      rcases hk with hk | hk
      · exact hk
      · exact absurd hk hne

theorem foldl_mergeStep_untouched (cs f : List Field) :
    ∀ (i : Nat) (e : Field), (f.foldl mergeStep cs)[i]? = some e →
      e.Key ∉ f.map Field.Key → cs[i]? = some e := by
  induction f using List.reverseRecOn with
  | nil => intro i e h _; simpa using h
  | append_singleton f g ih =>
    intro i e he hk
    rw [List.foldl_append, List.foldl_cons, List.foldl_nil] at he
    simp only [List.map_append, List.map_cons, List.map_nil, List.mem_append,
      List.mem_singleton, not_or] at hk
    exact ih i e (getElem?_mergeStep_other _ g e i he hk.2) hk.1

theorem foldl_mergeStep_present (cs f : List Field) :
    ∀ g ∈ f, ∃ e ∈ f.foldl mergeStep cs, e.Key = g.Key := by
  induction f using List.reverseRecOn with
  | nil => intro g h; simp at h
  | append_singleton f g0 ih =>
    intro g hg
    rw [List.foldl_append, List.foldl_cons, List.foldl_nil]
    by_cases hk : g.Key = g0.Key
    · exact ⟨g0, mem_mergeStep_self _ g0, hk.symm⟩
    · rw [List.mem_append, List.mem_singleton] at hg
      rcases hg with hg | hg
      · obtain ⟨e, he, hek⟩ := ih g hg
        refine ⟨e, ?_, hek⟩
        unfold mergeStep
        split
        · exact List.mem_map.mpr ⟨e, he, by simp [hek, hk]⟩
        · exact List.mem_append_left _ he
      · subst hg; exact absurd rfl hk

/-- C1: for typed context fields `cs` and caller fields `f`, `mergeFields` returns a list
`r` of typed fields in which every entry whose name occurs in `f` is the last field of
`f` with that name, every entry whose name does not occur in `f` is the entry of `cs` at
the same position, and every name of `f` is present. -/
theorem mergeFields_caller_overrides (cs f : List Field) :
    ∃ r : List Field,
      mergeFields (cs.map Any.field) (f.map Any.field) = some (r.map Any.field) ∧
      (∀ e ∈ r, e.Key ∈ f.map Field.Key → lastNamed e.Key f = some e) ∧
      (∀ (i : Nat) (e : Field), r[i]? = some e → e.Key ∉ f.map Field.Key → cs[i]? = some e) ∧
      (∀ g ∈ f, ∃ e ∈ r, e.Key = g.Key) :=
  ⟨f.foldl mergeStep cs, mergeFields_typed cs f, foldl_mergeStep_last cs f,
    foldl_mergeStep_untouched cs f, foldl_mergeStep_present cs f⟩

theorem firstOccurrences_filter (p : String → Bool) (l : List String) :
    firstOccurrences (l.filter p) = (firstOccurrences l).filter p := by
  induction l with
  | nil => rfl
  | cons n ns ih =>
    by_cases hp : p n = true
    · rw [List.filter_cons_of_pos hp]
      simp only [firstOccurrences]
      rw [List.filter_cons_of_pos hp, ih, List.filter_filter, List.filter_filter]
      congr 1
      apply List.filter_congr
      intro x _
      exact Bool.and_comm _ _
    · rw [List.filter_cons_of_neg hp]
      simp only [firstOccurrences]
      rw [List.filter_cons_of_neg hp, ih, List.filter_filter]
      apply List.filter_congr
      intro x _
      by_cases hx : x = n
      · subst hx; simp [hp]
      · simp [hx]

theorem mem_firstOccurrences (l : List String) (x : String) :
    x ∈ firstOccurrences l ↔ x ∈ l := by
  induction l with
  | nil => simp [firstOccurrences]
  | cons n ns ih =>
    simp only [firstOccurrences, List.mem_cons, List.mem_filter, ih]
    by_cases hx : x = n
    · simp [hx]
    · simp [hx]

theorem nodup_firstOccurrences (l : List String) : (firstOccurrences l).Nodup := by
  induction l with
  | nil => simp [firstOccurrences]
  | cons n ns ih =>
    simp only [firstOccurrences, List.nodup_cons]
    refine ⟨?_, ih.filter _⟩
    simp [List.mem_filter]

theorem keys_foldl_mergeStep (f cs : List Field) :
    (f.foldl mergeStep cs).map Field.Key =
      cs.map Field.Key ++
        firstOccurrences ((f.map Field.Key).filter (fun n => n ∉ cs.map Field.Key)) := by
  induction f generalizing cs with
  | nil => simp [firstOccurrences]
  | cons g rest ih =>
    rw [List.foldl_cons, ih, keys_mergeStep]
    by_cases hin : g.Key ∈ cs.map Field.Key
    · rw [if_pos hin, List.map_cons, List.filter_cons_of_neg (by simpa using hin)]
    · rw [if_neg hin, List.map_cons, List.filter_cons_of_pos (by simpa using hin)]
      simp only [firstOccurrences, List.append_assoc, List.singleton_append]
      congr 2
      rw [← firstOccurrences_filter, List.filter_filter]
      congr 1
      apply List.filter_congr
      intro x _
      by_cases hx : x = g.Key
      · simp [hx]
      · simp [hx]

/-- C2: for typed context fields `cs` and caller fields `f`, the names of
`mergeFields cs f`, read in order, are the names of `cs` followed by the names of `f`
that do not occur in `cs`, each exactly once, in order of first occurrence in `f`. -/
theorem mergeFields_names (cs f : List Field) :
    ∃ r : List Field,
      mergeFields (cs.map Any.field) (f.map Any.field) = some (r.map Any.field) ∧
      r.map Field.Key =
        cs.map Field.Key ++
          firstOccurrences ((f.map Field.Key).filter (fun n => n ∉ cs.map Field.Key)) :=
  ⟨f.foldl mergeStep cs, mergeFields_typed cs f, keys_foldl_mergeStep f cs⟩

theorem nodup_keys_foldl_mergeStep (f cs : List Field) (h : (cs.map Field.Key).Nodup) :
    ((f.foldl mergeStep cs).map Field.Key).Nodup := by
  rw [keys_foldl_mergeStep, List.nodup_append]
  refine ⟨h, nodup_firstOccurrences _, ?_⟩
  intro x hx hx2
  rw [mem_firstOccurrences, List.mem_filter] at hx2
  simpa [hx] using hx2.2

/-- C5, as amended: when the context fields `cs` have pairwise distinct names, the list
returned by `mergeFields cs f` has pairwise distinct names, whatever duplicates the
caller fields `f` contain. -/
theorem mergeFields_nodup_of_context_nodup (cs f : List Field)
    (h : (cs.map Field.Key).Nodup) :
    ∃ r : List Field,
      mergeFields (cs.map Any.field) (f.map Any.field) = some (r.map Any.field) ∧
      (r.map Field.Key).Nodup :=
  ⟨f.foldl mergeStep cs, mergeFields_typed cs f, nodup_keys_foldl_mergeStep f cs h⟩

/-- Witness of `mergeFields_nodup_of_context_nodup`: context `k1`, caller fields
`k2, k1, k2`. -/
theorem mergeFields_nodup_of_context_nodup_witness :
    ([Field.mk "k1" (.int 1)].map Field.Key).Nodup ∧
    ∃ r : List Field,
      mergeFields ([Field.mk "k1" (.int 1)].map Any.field)
        ([Field.mk "k2" (.int 2), Field.mk "k1" (.int 3), Field.mk "k2" (.int 4)].map
          Any.field) = some (r.map Any.field) ∧
      (r.map Field.Key).Nodup :=
  ⟨by decide, mergeFields_nodup_of_context_nodup _ _ (by decide)⟩

/-- C5, as stated, fails: two context fields named `k` stay two entries named `k`, both
overwritten by the caller field `k`. -/
theorem mergeFields_keeps_context_duplicates :
    mergeFields ([Field.mk "k" (.int 1), Field.mk "k" (.int 2)].map Any.field)
        ([Field.mk "k" (.int 3)].map Any.field) =
      some ([Field.mk "k" (.int 3), Field.mk "k" (.int 3)].map Any.field) ∧
    ¬ ([Field.mk "k" (.int 3), Field.mk "k" (.int 3)].map Field.Key).Nodup := by
  decide

/-! ## The scan of `sweetenFields` -/

/-- Induction along the scan: an iteration consumes one element (a field or an error),
the last element, or two elements. -/
theorem scan_induction {P : List Any → Prop} (hnil : P [])
    (hone : ∀ cur rest, (cur.asField ≠ none ∨ cur.asError ≠ none) → P rest → P (cur :: rest))
    (hlast : ∀ cur, cur.asField = none → cur.asError = none → P [cur])
    (hpair : ∀ cur val rest, cur.asField = none → cur.asError = none → P rest →
      P (cur :: val :: rest)) :
    ∀ args, P args
  | [] => hnil
  | [cur] =>
    if h : cur.asField = none ∧ cur.asError = none then hlast cur h.1 h.2
    else hone cur [] (by tauto) hnil
  | cur :: val :: rest =>
    if h : cur.asField = none ∧ cur.asError = none then
      hpair cur val rest h.1 h.2 (scan_induction hnil hone hlast hpair rest)
    else
      hone cur (val :: rest) (by tauto) (scan_induction hnil hone hlast hpair (val :: rest))

theorem sweetenLoop_field (i : Nat) (f : Field) (rest : List Any) (st : SweetenState) :
    sweetenLoop i (Any.field f :: rest) st =
      sweetenLoop (i + 1) rest { st with fields := st.fields ++ [Any.field f] } := by
  simp [sweetenLoop, Any.asField]

theorem sweetenLoop_error (i : Nat) (msg : String) (rest : List Any) (st : SweetenState) :
    sweetenLoop i (Any.error msg :: rest) st =
      if st.seenError = false then
        sweetenLoop (i + 1) rest
          { st with seenError := true,
                    fields := st.fields ++ [Any.field (zapError (Any.error msg))] }
      else
        sweetenLoop (i + 1) rest
          { st with logs := st.logs ++ [⟨errMsgMultiple, .plain (zapError (Any.error msg))⟩] } := by
  cases h : st.seenError <;> simp [sweetenLoop, Any.asField, Any.asError, h]

theorem sweetenLoop_last (i : Nat) (cur : Any) (st : SweetenState)
    (h1 : cur.asField = none) (h2 : cur.asError = none) :
    sweetenLoop i [cur] st =
      { st with logs := st.logs ++ [⟨errMsgOddNumber, .plain (zapAny "ignored" cur)⟩] } := by
  simp [sweetenLoop, h1, h2]

theorem sweetenLoop_pair (i : Nat) (cur val : Any) (rest : List Any) (st : SweetenState)
    (h1 : cur.asField = none) (h2 : cur.asError = none) :
    sweetenLoop i (cur :: val :: rest) st =
      match cur.asString with
      | none => sweetenLoop (i + 2) rest { st with invalid := st.invalid ++ [⟨i, cur, val⟩] }
      | some keyStr =>
        sweetenLoop (i + 2) rest
          { st with fields := st.fields ++ [Any.field (zapAny keyStr val)] } := by
  simp [sweetenLoop, h1, h2]

theorem asField_or_asError (cur : Any) (h : cur.asField ≠ none ∨ cur.asError ≠ none) :
    (∃ f, cur = Any.field f) ∨ (∃ msg, cur = Any.error msg) := by
  cases cur <;> simp [Any.asField, Any.asError] at h ⊢

theorem sweetenLoop_eq_foldl (args : List Any) :
    ∀ (i : Nat) (st : SweetenState),
      sweetenLoop i args st = (scanItems i args).foldl stepItem st := by
  induction args using scan_induction with
  | hnil => intro i st; simp [sweetenLoop, scanItems]
  | hone cur rest h ih =>
    intro i st
    rcases asField_or_asError cur h with ⟨f, rfl⟩ | ⟨msg, rfl⟩
    · rw [sweetenLoop_field, ih]
      simp [scanItems, Any.asField, stepItem]
    · rw [sweetenLoop_error]
      cases hs : st.seenError
      · simp [scanItems, Any.asField, Any.asError, stepItem, hs, ih]
      · simp [scanItems, Any.asField, Any.asError, stepItem, hs, ih]
  | hlast cur h1 h2 =>
    intro i st
    rw [sweetenLoop_last i cur st h1 h2]
    simp [scanItems, h1, h2, stepItem]
  | hpair cur val rest h1 h2 ih =>
    intro i st
    rw [sweetenLoop_pair i cur val rest st h1 h2]
    cases hk : cur.asString with
    | none => simp [scanItems, h1, h2, stepItem, hk, ih]
    | some keyStr => simp [scanItems, h1, h2, stepItem, hk, ih]

theorem foldl_stepItem_fields_typed (items : List ScanItem) :
    ∀ st : SweetenState, ∃ t : List Field,
      (items.foldl stepItem st).fields = st.fields ++ t.map Any.field := by
  induction items with
  | nil => intro st; exact ⟨[], by simp⟩
  | cons it rest ih =>
    intro st
    obtain ⟨t, ht⟩ := ih (stepItem st it)
    rw [List.foldl_cons, ht]
    cases it with
    | typed p f => exact ⟨f :: t, by simp [stepItem]⟩
    | err p e =>
      cases hs : st.seenError
      · exact ⟨zapError e :: t, by simp [stepItem, hs]⟩
      · exact ⟨t, by simp [stepItem, hs]⟩
    | pair p k v =>
      cases hk : k.asString with
      | none => exact ⟨t, by simp [stepItem, hk]⟩
      | some keyStr => exact ⟨zapAny keyStr v :: t, by simp [stepItem, hk]⟩
    | orphan p x => exact ⟨t, by simp [stepItem]⟩

theorem sweetenFields_fields (args : List Any) :
    (sweetenFields args).fields = (sweetenLoop 0 args ⟨[], [], false, []⟩).fields := by
  unfold sweetenFields
  cases args with
  | nil => simp [sweetenLoop]
  | cons a rest =>
    simp only [List.length_cons, Nat.add_one_ne_zero, if_false]
    split <;> rfl

theorem sweetenFields_typed (args : List Any) :
    ∃ t : List Field, (sweetenFields args).fields = t.map Any.field := by
  obtain ⟨t, ht⟩ := foldl_stepItem_fields_typed (scanItems 0 args) ⟨[], [], false, []⟩
  exact ⟨t, by rw [sweetenFields_fields, sweetenLoop_eq_foldl, ht]; simp⟩

/-! ## Contexts -/

theorem AddKV_preserves_nodup (ctx : Context) (kvs : List Any) (s : List Field)
    (hs : getKvsFromContext ctx = s.map Any.field) (hn : (s.map Field.Key).Nodup) :
    ∃ ctx1, ∃ s1 : List Field, AddKV ctx kvs = some ctx1 ∧
      getKvsFromContext ctx1 = s1.map Any.field ∧ (s1.map Field.Key).Nodup := by
  unfold AddKV
  by_cases h0 : kvs.length = 0
  · exact ⟨ctx, s, by simp [h0], hs, hn⟩
  · obtain ⟨t, ht⟩ := sweetenFields_typed kvs
    refine ⟨⟨some ((t.foldl mergeStep s).map Any.field)⟩, t.foldl mergeStep s, ?_, rfl,
      nodup_keys_foldl_mergeStep t s hn⟩
    simp [h0, hs, ht, mergeFields_typed]

theorem addKVs_preserves_nodup (calls : List (List Any)) :
    ∀ (ctx : Context) (s : List Field), getKvsFromContext ctx = s.map Any.field →
      (s.map Field.Key).Nodup →
      ∃ ctx1, ∃ s1 : List Field, addKVs ctx calls = some ctx1 ∧
        getKvsFromContext ctx1 = s1.map Any.field ∧ (s1.map Field.Key).Nodup := by
  induction calls with
  | nil => intro ctx s hs hn; exact ⟨ctx, s, rfl, hs, hn⟩
  | cons kvs rest ih =>
    intro ctx s hs hn
    obtain ⟨ctx1, s1, h1, hs1, hn1⟩ := AddKV_preserves_nodup ctx kvs s hs hn
    obtain ⟨ctx2, s2, h2, hs2, hn2⟩ := ih ctx1 s1 hs1 hn1
    exact ⟨ctx2, s2, by simp [addKVs, h1, h2], hs2, hn2⟩

/-- C6: every chain of `AddKV` calls, with arbitrary argument lists, started from the
context without stored state completes, and the state stored in the resulting context
consists of typed fields with pairwise distinct names. -/
theorem addKVs_state_nodup (calls : List (List Any)) :
    ∃ ctx, ∃ s : List Field, addKVs background calls = some ctx ∧
      getKvsFromContext ctx = s.map Any.field ∧ (s.map Field.Key).Nodup :=
  addKVs_preserves_nodup calls background [] rfl (by simp)

/-- C3 fails on the code: with no accumulated fields `mergeKvs` returns the sweetened
arguments `a=1, a=2` as they are, while `mergeFields` applied to the (empty) state and
the same sweetened arguments returns the single field `a=2`. -/
theorem mergeKvs_empty_state_skips_merge :
    mergeKvs background [Any.str "a", Any.int 1, Any.str "a", Any.int 2] =
      some [Any.field (.mk "a" (.int 1)), Any.field (.mk "a" (.int 2))] ∧
    mergeFields (getKvsFromContext background)
        (sweetenFields [Any.str "a", Any.int 1, Any.str "a", Any.int 2]).fields =
      some [Any.field (.mk "a" (.int 2))] ∧
    mergeKvs background [Any.str "a", Any.int 1, Any.str "a", Any.int 2] ≠
      mergeFields (getKvsFromContext background)
        (sweetenFields [Any.str "a", Any.int 1, Any.str "a", Any.int 2]).fields := by
  decide

/-- C4 fails on the code: on the root context (no `AddKV` call), `mergeKvs` with the
arguments `"k", 1, "k", 2` hands over two fields named `k`; after `AddKV(ctx, "x", 0)` the
same arguments give one field named `k`. -/
theorem mergeKvs_empty_state_duplicate_names :
    mergeKvs background [Any.str "k", Any.int 1, Any.str "k", Any.int 2] =
      some ([Field.mk "k" (.int 1), Field.mk "k" (.int 2)].map Any.field) ∧
    ¬ ([Field.mk "k" (.int 1), Field.mk "k" (.int 2)].map Field.Key).Nodup ∧
    (AddKV background [Any.str "x", Any.int 0]).bind
        (fun ctx => mergeKvs ctx [Any.str "k", Any.int 1, Any.str "k", Any.int 2]) =
      some ([Field.mk "x" (.int 0), Field.mk "k" (.int 2)].map Any.field) := by
  decide

/-! ## Well-formed argument lists -/

theorem sweetenLoop_wellFormed (items : List Item) :
    ∀ (i : Nat) (st : SweetenState),
      sweetenLoop i (items.flatMap Item.args) st =
        { st with fields := st.fields ++ items.map (fun it => Any.field it.field) } := by
  induction items with
  | nil => intro i st; simp [sweetenLoop]
  | cons it rest ih =>
    intro i st
    cases it with
    | typed f =>
      simp only [List.flatMap_cons, Item.args, List.singleton_append]
      rw [sweetenLoop_field, ih]
      simp [Item.field]
    | pair k v =>
      simp only [List.flatMap_cons, Item.args, List.cons_append, List.nil_append]
      rw [sweetenLoop_pair i (Any.str k) v _ st rfl rfl]
      simp only [Any.asString]
      rw [ih]
      simp [Item.field]

theorem flatMap_typed_args (fs : List Field) :
    (fs.map Item.typed).flatMap Item.args = fs.map Any.field := by
  induction fs with
  | nil => rfl
  | cons f rest ih => simp [List.flatMap_cons, Item.args, ih]

/-- C7: on the concatenation of items, each a typed Field or a string key followed by a
value, `sweetenFields` returns exactly the field of each item, in item order, and logs
nothing; in particular a list of typed Fields is returned unchanged. -/
theorem sweetenFields_wellFormed (items : List Item) (fs : List Field) :
    sweetenFields (items.flatMap Item.args) =
        ⟨items.map (fun it => Any.field it.field), []⟩ ∧
      sweetenFields (fs.map Any.field) = ⟨fs.map Any.field, []⟩ := by
  have key : ∀ its : List Item, sweetenFields (its.flatMap Item.args) =
      ⟨its.map (fun it => Any.field it.field), []⟩ := by
    intro its
    unfold sweetenFields
    by_cases h0 : (its.flatMap Item.args).length = 0
    · have hnil : its = [] := by
        cases its with
        | nil => rfl
        | cons it rest => cases it <;> simp [List.flatMap_cons, Item.args] at h0
      simp [hnil]
    · rw [if_neg h0]
      simp [sweetenLoop_wellFormed]
  refine ⟨key items, ?_⟩
  have := key (fs.map Item.typed)
  rw [flatMap_typed_args] at this
  simpa [Item.field, Function.comp_def] using this

/-! ## What the scan records, item by item -/

theorem foldl_stepItem_invalid (items : List ScanItem) :
    ∀ st : SweetenState,
      (items.foldl stepItem st).invalid = st.invalid ++ items.filterMap ScanItem.invalid? := by
  induction items with
  | nil => intro st; simp
  | cons it rest ih =>
    intro st
    rw [List.foldl_cons, ih]
    cases it with
    | typed p f => simp [stepItem, ScanItem.invalid?]
    | err p e => cases hs : st.seenError <;> simp [stepItem, ScanItem.invalid?, hs]
    | pair p k v => cases hk : k.asString <;> simp [stepItem, ScanItem.invalid?, hk]
    | orphan p x => simp [stepItem, ScanItem.invalid?]

theorem foldl_stepItem_multiple (items : List ScanItem) :
    ∀ st : SweetenState,
      (items.foldl stepItem st).logs.filter (fun l => l.Message = errMsgMultiple) =
        st.logs.filter (fun l => l.Message = errMsgMultiple) ++
          (if st.seenError = true then items.filterMap ScanItem.error?
            else (items.filterMap ScanItem.error?).tail).map multipleEntry := by
  induction items with
  | nil => intro st; simp
  | cons it rest ih =>
    intro st
    rw [List.foldl_cons, ih]
    cases it with
    | typed p f => simp [stepItem, ScanItem.error?]
    | err p e =>
      cases hs : st.seenError
      · simp [stepItem, ScanItem.error?, hs]
      · simp [stepItem, ScanItem.error?, hs, multipleEntry, List.filter_append]
    | pair p k v => cases hk : k.asString <;> simp [stepItem, ScanItem.error?, hk]
    | orphan p x =>
      have : errMsgOddNumber ≠ errMsgMultiple := by decide
      simp [stepItem, ScanItem.error?, List.filter_append, this]

theorem foldl_stepItem_oddNumber (items : List ScanItem) :
    ∀ st : SweetenState,
      (items.foldl stepItem st).logs.filter (fun l => l.Message = errMsgOddNumber) =
        st.logs.filter (fun l => l.Message = errMsgOddNumber) ++
          (items.filterMap ScanItem.orphan?).map oddNumberEntry := by
  induction items with
  | nil => intro st; simp
  | cons it rest ih =>
    intro st
    rw [List.foldl_cons, ih]
    cases it with
    | typed p f => simp [stepItem, ScanItem.orphan?]
    | err p e =>
      have : errMsgMultiple ≠ errMsgOddNumber := by decide
      cases hs : st.seenError <;>
        simp [stepItem, ScanItem.orphan?, hs, List.filter_append, this]
    | pair p k v => cases hk : k.asString <;> simp [stepItem, ScanItem.orphan?, hk]
    | orphan p x => simp [stepItem, ScanItem.orphan?, List.filter_append, oddNumberEntry]

theorem foldl_stepItem_nonStringKey (items : List ScanItem) :
    ∀ st : SweetenState, (∀ l ∈ st.logs, l.Message ≠ errMsgNonStringKey) →
      ∀ l ∈ (items.foldl stepItem st).logs, l.Message ≠ errMsgNonStringKey := by
  induction items with
  | nil => intro st h; simpa using h
  | cons it rest ih =>
    intro st h
    rw [List.foldl_cons]
    apply ih
    have h1 : errMsgMultiple ≠ errMsgNonStringKey := by decide
    have h2 : errMsgOddNumber ≠ errMsgNonStringKey := by decide
    cases it with
    | typed p f => simpa [stepItem] using h
    | err p e =>
      cases hs : st.seenError
      · simpa [stepItem, hs] using h
      · intro l hl
        simp only [stepItem, hs, Bool.true_eq_false, if_false, List.mem_append,
          List.mem_singleton] at hl
        rcases hl with hl | hl
        · exact h l hl
        · subst hl; exact h1
    | pair p k v => cases hk : k.asString <;> simpa [stepItem, hk] using h
    | orphan p x =>
      intro l hl
      simp only [stepItem, List.mem_append, List.mem_singleton] at hl
      rcases hl with hl | hl
      · exact h l hl
      · subst hl; exact h2

theorem foldl_stepItem_fields_seen (items : List ScanItem) :
    ∀ st : SweetenState, st.seenError = true →
      (items.foldl stepItem st).fields = st.fields ++ items.flatMap ScanItem.plainFields := by
  induction items with
  | nil => intro st _; simp
  | cons it rest ih =>
    intro st hs
    rw [List.foldl_cons]
    cases it with
    | typed p f => rw [ih _ (by simpa [stepItem] using hs)]; simp [stepItem, ScanItem.plainFields]
    | err p e => rw [ih _ (by simp [stepItem, hs])]; simp [stepItem, hs, ScanItem.plainFields]
    | pair p k v =>
      cases hk : k.asString with
      | none => rw [ih _ (by simpa [stepItem, hk] using hs)]; simp [stepItem, hk, ScanItem.plainFields]
      | some keyStr =>
        rw [ih _ (by simpa [stepItem, hk] using hs)]; simp [stepItem, hk, ScanItem.plainFields]
    | orphan p x => rw [ih _ (by simpa [stepItem] using hs)]; simp [stepItem, ScanItem.plainFields]

theorem foldl_stepItem_fields_noError (items : List ScanItem) :
    ∀ st : SweetenState, (∀ it ∈ items, it.error? = none) →
      (items.foldl stepItem st).fields = st.fields ++ items.flatMap ScanItem.plainFields ∧
        (items.foldl stepItem st).seenError = st.seenError := by
  induction items with
  | nil => intro st _; simp
  | cons it rest ih =>
    intro st h
    have hrest : ∀ it ∈ rest, it.error? = none := fun x hx => h x (List.mem_cons_of_mem _ hx)
    have hit := h it (List.mem_cons_self _ _)
    rw [List.foldl_cons]
    obtain ⟨h1, h2⟩ := ih (stepItem st it) hrest
    rw [h1, h2]
    cases it with
    | typed p f => simp [stepItem, ScanItem.plainFields]
    | err p e => simp [ScanItem.error?] at hit
    | pair p k v => cases hk : k.asString <;> simp [stepItem, hk, ScanItem.plainFields]
    | orphan p x => simp [stepItem, ScanItem.plainFields]

theorem foldl_stepItem_fields_firstError (A B : List ScanItem) (p : Nat) (e : Any)
    (st : SweetenState) (hs : st.seenError = false) (hA : ∀ it ∈ A, it.error? = none) :
    ((A ++ ScanItem.err p e :: B).foldl stepItem st).fields =
      st.fields ++ A.flatMap ScanItem.plainFields ++
        Any.field (zapError e) :: B.flatMap ScanItem.plainFields := by
  obtain ⟨h1, h2⟩ := foldl_stepItem_fields_noError A st hA
  rw [List.foldl_append, List.foldl_cons, foldl_stepItem_fields_seen B _ (by simp [stepItem, h2, hs])]
  simp [stepItem, h2, hs, h1]

theorem sweetenFields_logs (args : List Any) :
    (sweetenFields args).logs =
      (sweetenLoop 0 args ⟨[], [], false, []⟩).logs ++
        (if (sweetenLoop 0 args ⟨[], [], false, []⟩).invalid = [] then []
          else [nonStringKeyEntry (sweetenLoop 0 args ⟨[], [], false, []⟩).invalid]) := by
  unfold sweetenFields
  cases args with
  | nil => simp [sweetenLoop]
  | cons a rest =>
    simp only [List.length_cons, Nat.add_one_ne_zero, if_false]
    cases h : (sweetenLoop 0 (a :: rest) ⟨[], [], false, []⟩).invalid with
    | nil => simp
    | cons q qs => simp [nonStringKeyEntry]

theorem sweetenFields_invalid (args : List Any) :
    (sweetenLoop 0 args ⟨[], [], false, []⟩).invalid =
      (scanItems 0 args).filterMap ScanItem.invalid? := by
  rw [sweetenLoop_eq_foldl, foldl_stepItem_invalid]
  simp

theorem sweetenFields_logs_multiple (args : List Any) :
    (sweetenFields args).logs.filter (fun l => l.Message = errMsgMultiple) =
      ((scanItems 0 args).filterMap ScanItem.error?).tail.map multipleEntry := by
  have hne : errMsgNonStringKey ≠ errMsgMultiple := by decide
  have hloop := foldl_stepItem_multiple (scanItems 0 args) ⟨[], [], false, []⟩
  simp only [Bool.false_eq_true, if_false, List.filter_nil, List.nil_append] at hloop
  rw [sweetenFields_logs, List.filter_append, sweetenLoop_eq_foldl, hloop]
  by_cases hinv : ((scanItems 0 args).foldl stepItem ⟨[], [], false, []⟩).invalid = []
  · simp [hinv]
  · simp [hinv, nonStringKeyEntry, hne]

/-- C8: of the errors the scan of `sweetenFields` meets as the current item, the first one
contributes the field `zap.Error(e)`, named "error" and holding that error, between the
fields of the items before it and those of the items after it; the later ones contribute
no field, and the `errMsgMultiple` diagnostics are exactly one for each later error, in
scan order. Without any such error the fields are those of the other items and no
`errMsgMultiple` diagnostic is logged. -/
theorem sweetenFields_errors (args : List Any) :
    (sweetenFields args).logs.filter (fun l => l.Message = errMsgMultiple) =
        ((scanItems 0 args).filterMap ScanItem.error?).tail.map multipleEntry ∧
      ((∀ it ∈ scanItems 0 args, it.error? = none) →
        (sweetenFields args).fields = (scanItems 0 args).flatMap ScanItem.plainFields ∧
        (sweetenFields args).logs.filter (fun l => l.Message = errMsgMultiple) = []) ∧
      (∀ (A B : List ScanItem) (p : Nat) (e : Any),
        scanItems 0 args = A ++ ScanItem.err p e :: B → (∀ it ∈ A, it.error? = none) →
        (sweetenFields args).fields =
            A.flatMap ScanItem.plainFields ++
              Any.field (zapError e) :: B.flatMap ScanItem.plainFields ∧
          (zapError e).Key = "error" ∧ (zapError e).Interface = e ∧
          (sweetenFields args).logs.filter (fun l => l.Message = errMsgMultiple) =
            (B.filterMap ScanItem.error?).map multipleEntry) := by
  refine ⟨sweetenFields_logs_multiple args, ?_, ?_⟩
  · intro h
    have hnil : (scanItems 0 args).filterMap ScanItem.error? = [] := by
      rw [List.filterMap_eq_nil_iff]
      exact h
    refine ⟨?_, ?_⟩
    · rw [sweetenFields_fields, sweetenLoop_eq_foldl,
        (foldl_stepItem_fields_noError _ _ h).1]
      simp
    · rw [sweetenFields_logs_multiple, hnil]; rfl
  · intro A B p e hsplit hA
    have herrs : (scanItems 0 args).filterMap ScanItem.error? =
        e :: B.filterMap ScanItem.error? := by
      have hAnil : A.filterMap ScanItem.error? = [] := by
        rw [List.filterMap_eq_nil_iff]
        exact hA
      rw [hsplit, List.filterMap_append, hAnil]
      simp [ScanItem.error?]
    refine ⟨?_, rfl, rfl, ?_⟩
    · rw [sweetenFields_fields, sweetenLoop_eq_foldl, hsplit,
        foldl_stepItem_fields_firstError A B p e _ rfl hA]
      simp
    · rw [sweetenFields_logs_multiple, herrs]; rfl

/-- Witness of `sweetenFields_errors`: the arguments `"a", 1, err1, err2, "b", 2`. -/
theorem sweetenFields_errors_witness :
    scanItems 0 [Any.str "a", Any.int 1, Any.error "err1", Any.error "err2", Any.str "b",
        Any.int 2] =
      [ScanItem.pair 0 (Any.str "a") (Any.int 1)] ++ ScanItem.err 2 (Any.error "err1") ::
        [ScanItem.err 3 (Any.error "err2"), ScanItem.pair 4 (Any.str "b") (Any.int 2)] ∧
    (∀ it ∈ [ScanItem.pair 0 (Any.str "a") (Any.int 1)], it.error? = none) ∧
    ((sweetenFields [Any.str "a", Any.int 1, Any.error "err1", Any.error "err2", Any.str "b",
        Any.int 2]).fields =
        [ScanItem.pair 0 (Any.str "a") (Any.int 1)].flatMap ScanItem.plainFields ++
          Any.field (zapError (Any.error "err1")) ::
            [ScanItem.err 3 (Any.error "err2"),
              ScanItem.pair 4 (Any.str "b") (Any.int 2)].flatMap ScanItem.plainFields ∧
      (zapError (Any.error "err1")).Key = "error" ∧
      (zapError (Any.error "err1")).Interface = Any.error "err1" ∧
      (sweetenFields [Any.str "a", Any.int 1, Any.error "err1", Any.error "err2", Any.str "b",
        Any.int 2]).logs.filter (fun l => l.Message = errMsgMultiple) =
        ([ScanItem.err 3 (Any.error "err2"),
          ScanItem.pair 4 (Any.str "b") (Any.int 2)].filterMap ScanItem.error?).map
            multipleEntry) :=
  ⟨by decide, by decide,
    (sweetenFields_errors _).2.2 _ _ 2 (Any.error "err1") (by decide) (by decide)⟩

/-! ## Positions of the items of the scan -/

theorem scanItems_field (i : Nat) (f : Field) (rest : List Any) :
    scanItems i (Any.field f :: rest) = ScanItem.typed i f :: scanItems (i + 1) rest := by
  simp [scanItems, Any.asField]

theorem scanItems_error (i : Nat) (msg : String) (rest : List Any) :
    scanItems i (Any.error msg :: rest) =
      ScanItem.err i (Any.error msg) :: scanItems (i + 1) rest := by
  simp [scanItems, Any.asField, Any.asError]

theorem scanItems_last (i : Nat) (cur : Any) (h1 : cur.asField = none)
    (h2 : cur.asError = none) : scanItems i [cur] = [ScanItem.orphan i cur] := by
  simp [scanItems, h1, h2]

theorem scanItems_pair (i : Nat) (cur val : Any) (rest : List Any) (h1 : cur.asField = none)
    (h2 : cur.asError = none) :
    scanItems i (cur :: val :: rest) = ScanItem.pair i cur val :: scanItems (i + 2) rest := by
  simp [scanItems, h1, h2]

/-- The items of the scan, put back together, are the argument list. -/
theorem scanItems_args (args : List Any) :
    ∀ i : Nat, (scanItems i args).flatMap ScanItem.args = args := by
  induction args using scan_induction with
  | hnil => intro i; simp [scanItems]
  | hone cur rest h ih =>
    intro i
    rcases asField_or_asError cur h with ⟨f, rfl⟩ | ⟨msg, rfl⟩
    · rw [scanItems_field, List.flatMap_cons, ih]; rfl
    · rw [scanItems_error, List.flatMap_cons, ih]; rfl
  | hlast cur h1 h2 => intro i; rw [scanItems_last i cur h1 h2]; simp [ScanItem.args]
  | hpair cur val rest h1 h2 ih =>
    intro i
    rw [scanItems_pair i cur val rest h1 h2, List.flatMap_cons, ih]; rfl

theorem scanItems_mem_suffix (args : List Any) :
    ∀ (i : Nat) (it : ScanItem), it ∈ scanItems i args →
      i ≤ it.pos ∧ ∃ B, scanItems it.pos (args.drop (it.pos - i)) = it :: B := by
  induction args using scan_induction with
  | hnil => intro i it h; simp [scanItems] at h
  | hone cur rest h ih =>
    intro i it hit
    have key : ∀ X : ScanItem, X.pos = i →
        scanItems i (cur :: rest) = X :: scanItems (i + 1) rest →
        i ≤ it.pos ∧ ∃ B, scanItems it.pos ((cur :: rest).drop (it.pos - i)) = it :: B := by
      intro X hX h0
      rw [h0, List.mem_cons] at hit
      rcases hit with rfl | hit
      · refine ⟨by omega, scanItems (i + 1) rest, ?_⟩
        rw [hX, Nat.sub_self, List.drop_zero, h0]
      · obtain ⟨hle, B, hB⟩ := ih (i + 1) it hit
        refine ⟨by omega, B, ?_⟩
        have : it.pos - i = (it.pos - (i + 1)) + 1 := by omega
        rw [this, List.drop_succ_cons, hB]
    rcases asField_or_asError cur h with ⟨f, rfl⟩ | ⟨msg, rfl⟩
    · exact key (.typed i f) rfl (scanItems_field i f rest)
    · exact key (.err i (.error msg)) rfl (scanItems_error i msg rest)
  | hlast cur h1 h2 =>
    intro i it hit
    rw [scanItems_last i cur h1 h2, List.mem_singleton] at hit
    subst hit
    exact ⟨Nat.le_refl _, [], by simp [ScanItem.pos, scanItems_last _ cur h1 h2]⟩
  | hpair cur val rest h1 h2 ih =>
    intro i it hit
    rw [scanItems_pair i cur val rest h1 h2, List.mem_cons] at hit
    rcases hit with rfl | hit
    · exact ⟨Nat.le_refl _, scanItems (i + 2) rest, by
        simp [ScanItem.pos, scanItems_pair _ cur val rest h1 h2]⟩
    · obtain ⟨hle, B, hB⟩ := ih (i + 2) it hit
      refine ⟨by omega, B, ?_⟩
      have : it.pos - i = (it.pos - (i + 2)) + 1 + 1 := by omega
      rw [this, List.drop_succ_cons, List.drop_succ_cons, hB]

theorem scanItems_head_pair (j p : Nat) (k v : Any) (l : List Any) (B : List ScanItem)
    (h : scanItems j l = ScanItem.pair p k v :: B) :
    ∃ rest, l = k :: v :: rest ∧ k.asField = none ∧ k.asError = none := by
  match l, h with
  | [], h => simp [scanItems] at h
  | [cur], h =>
    cases cur <;> simp [scanItems, Any.asField, Any.asError] at h
  | cur :: val :: rest, h =>
    cases cur <;> simp [scanItems, Any.asField, Any.asError] at h ⊢ <;>
      (obtain ⟨⟨_, rfl, rfl⟩, _⟩ := h; simp)

theorem scanItems_head_orphan (j p : Nat) (x : Any) (l : List Any) (B : List ScanItem)
    (h : scanItems j l = ScanItem.orphan p x :: B) :
    l = [x] ∧ x.asField = none ∧ x.asError = none := by
  match l, h with
  | [], h => simp [scanItems] at h
  | [cur], h =>
    cases cur <;> simp [scanItems, Any.asField, Any.asError] at h ⊢ <;>
      (obtain ⟨⟨_, rfl⟩, _⟩ := h; simp)
  | cur :: val :: rest, h =>
    cases cur <;> simp [scanItems, Any.asField, Any.asError] at h

theorem scanItems_pos_increasing (args : List Any) :
    ∀ i : Nat, ((scanItems i args).map ScanItem.pos).Pairwise (fun a b => a < b) := by
  induction args using scan_induction with
  | hnil => intro i; simp [scanItems]
  | hone cur rest h ih =>
    intro i
    have key : ∀ X : ScanItem, X.pos = i →
        scanItems i (cur :: rest) = X :: scanItems (i + 1) rest →
        ((scanItems i (cur :: rest)).map ScanItem.pos).Pairwise (fun a b => a < b) := by
      intro X hX h0
      rw [h0, List.map_cons, List.pairwise_cons]
      refine ⟨?_, ih (i + 1)⟩
      intro q hq
      obtain ⟨it, hit, rfl⟩ := List.mem_map.mp hq
      have := (scanItems_mem_suffix rest (i + 1) it hit).1
      omega
    rcases asField_or_asError cur h with ⟨f, rfl⟩ | ⟨msg, rfl⟩
    · exact key (.typed i f) rfl (scanItems_field i f rest)
    · exact key (.err i (.error msg)) rfl (scanItems_error i msg rest)
  | hlast cur h1 h2 => intro i; simp [scanItems_last i cur h1 h2]
  | hpair cur val rest h1 h2 ih =>
    intro i
    rw [scanItems_pair i cur val rest h1 h2, List.map_cons, List.pairwise_cons]
    refine ⟨?_, ih (i + 2)⟩
    intro q hq
    obtain ⟨it, hit, rfl⟩ := List.mem_map.mp hq
    have := (scanItems_mem_suffix rest (i + 2) it hit).1
    have hpos : (ScanItem.pair i cur val).pos = i := rfl
    rw [hpos]
    omega

theorem invalid_positions_sublist (items : List ScanItem) :
    ((items.filterMap ScanItem.invalid?).map invalidPair.position).Sublist
      (items.map ScanItem.pos) := by
  induction items with
  | nil => simp
  | cons it rest ih =>
    cases it with
    | typed p f => simpa [ScanItem.invalid?] using ih.cons _
    | err p e => simpa [ScanItem.invalid?] using ih.cons _
    | orphan p x => simpa [ScanItem.invalid?] using ih.cons _
    | pair p k v =>
      cases hk : k.asString with
      | some s => simpa [ScanItem.invalid?, hk] using ih.cons _
      | none => simpa [ScanItem.invalid?, hk, ScanItem.pos] using ih.cons₂ p

theorem mem_invalid_iff (items : List ScanItem) (q : invalidPair) :
    q ∈ items.filterMap ScanItem.invalid? ↔
      ScanItem.pair q.position q.key q.value ∈ items ∧ q.key.asString = none := by
  rw [List.mem_filterMap]
  constructor
  · rintro ⟨it, hit, hq⟩
    cases it with
    | typed p f => simp [ScanItem.invalid?] at hq
    | err p e => simp [ScanItem.invalid?] at hq
    | orphan p x => simp [ScanItem.invalid?] at hq
    | pair p k v =>
      cases hk : k.asString with
      | some s => simp [ScanItem.invalid?, hk] at hq
      | none =>
        simp only [ScanItem.invalid?, hk, Option.some.injEq] at hq
        subst hq
        exact ⟨hit, hk⟩
  · rintro ⟨hit, hk⟩
    exact ⟨_, hit, by simp [ScanItem.invalid?, hk]⟩

theorem scanItems_pair_at (args : List Any) (p : Nat) (k v : Any)
    (h : ScanItem.pair p k v ∈ scanItems 0 args) :
    args[p]? = some k ∧ args[p + 1]? = some v := by
  obtain ⟨_, B, hB⟩ := scanItems_mem_suffix args 0 _ h
  simp only [ScanItem.pos, Nat.sub_zero] at hB
  obtain ⟨rest, hrest, _, _⟩ := scanItems_head_pair _ _ _ _ _ _ hB
  have h0 : (args.drop p)[0]? = some k := by rw [hrest]; simp
  have h1 : (args.drop p)[1]? = some v := by rw [hrest]; simp
  rw [List.getElem?_drop] at h0 h1
  exact ⟨by simpa using h0, h1⟩

theorem sweetenLoop_fields_congr (args : List Any) :
    ∀ (i j : Nat) (st st1 : SweetenState), st.fields = st1.fields →
      st.seenError = st1.seenError →
      (sweetenLoop i args st).fields = (sweetenLoop j args st1).fields := by
  intro i j st st1 hf hs
  rw [sweetenLoop_eq_foldl, sweetenLoop_eq_foldl]
  induction args using scan_induction generalizing i j st st1 with
  | hnil => simpa [scanItems] using hf
  | hone cur rest h ih =>
    rcases asField_or_asError cur h with ⟨f, rfl⟩ | ⟨msg, rfl⟩
    · rw [scanItems_field, scanItems_field, List.foldl_cons, List.foldl_cons]
      exact ih _ _ _ _ (by simp [stepItem, hf]) (by simp [stepItem, hs])
    · rw [scanItems_error, scanItems_error, List.foldl_cons, List.foldl_cons]
      cases h1 : st1.seenError
      · exact ih _ _ _ _ (by simp [stepItem, hf, hs, h1]) (by simp [stepItem, hs, h1])
      · exact ih _ _ _ _ (by simp [stepItem, hf, hs, h1]) (by simp [stepItem, hs, h1])
  | hlast cur h1 h2 =>
    rw [scanItems_last _ cur h1 h2, scanItems_last _ cur h1 h2]
    simpa [stepItem] using hf
  | hpair cur val rest h1 h2 ih =>
    rw [scanItems_pair _ cur val rest h1 h2, scanItems_pair _ cur val rest h1 h2,
      List.foldl_cons, List.foldl_cons]
    cases hk : cur.asString
    · exact ih _ _ _ _ (by simp [stepItem, hf, hk]) (by simp [stepItem, hs, hk])
    · exact ih _ _ _ _ (by simp [stepItem, hf, hk]) (by simp [stepItem, hs, hk])

/-! ## Items that contribute no field -/

theorem sweetenLoop_fields_erase_pair (args : List Any) :
    ∀ (i : Nat) (st : SweetenState) (p : Nat) (k v : Any),
      ScanItem.pair p k v ∈ scanItems i args → k.asString = none →
      (sweetenLoop i args st).fields =
        (sweetenLoop i ((args.eraseIdx (p - i)).eraseIdx (p - i)) st).fields := by
  induction args using scan_induction with
  | hnil => intro i st p k v h; simp [scanItems] at h
  | hone cur rest h ih =>
    intro i st p k v hmem hk
    have hmem1 : ScanItem.pair p k v ∈ scanItems (i + 1) rest := by
      rcases asField_or_asError cur h with ⟨f, rfl⟩ | ⟨msg, rfl⟩
      · rw [scanItems_field] at hmem; simpa using hmem
      · rw [scanItems_error] at hmem; simpa using hmem
    have hle : i + 1 ≤ p := (scanItems_mem_suffix rest (i + 1) _ hmem1).1
    have hp : p - i = (p - (i + 1)) + 1 := by omega
    rw [hp, List.eraseIdx_cons_succ, List.eraseIdx_cons_succ]
    rcases asField_or_asError cur h with ⟨f, rfl⟩ | ⟨msg, rfl⟩
    · rw [sweetenLoop_field, sweetenLoop_field]
      exact ih _ _ p k v hmem1 hk
    · rw [sweetenLoop_error, sweetenLoop_error]
      split
      · exact ih _ _ p k v hmem1 hk
      · exact ih _ _ p k v hmem1 hk
  | hlast cur h1 h2 =>
    intro i st p k v hmem hk
    rw [scanItems_last i cur h1 h2] at hmem
    simp at hmem
  | hpair cur val rest h1 h2 ih =>
    intro i st p k v hmem hk
    rw [scanItems_pair i cur val rest h1 h2, List.mem_cons] at hmem
    rcases hmem with heq | hmem
    · simp only [ScanItem.pair.injEq] at heq
      obtain ⟨rfl, rfl, rfl⟩ := heq
      rw [Nat.sub_self, List.eraseIdx_cons_zero, List.eraseIdx_cons_zero,
        sweetenLoop_pair p k v rest st h1 h2, hk]
      exact sweetenLoop_fields_congr rest _ _ _ _ rfl rfl
    · have hle : i + 2 ≤ p := (scanItems_mem_suffix rest (i + 2) _ hmem).1
      have hp : p - i = (p - (i + 2)) + 1 + 1 := by omega
      rw [hp, List.eraseIdx_cons_succ, List.eraseIdx_cons_succ, List.eraseIdx_cons_succ,
        List.eraseIdx_cons_succ, sweetenLoop_pair i cur val rest st h1 h2,
        sweetenLoop_pair i cur val _ st h1 h2]
      cases hc : cur.asString with
      | none => exact ih _ _ p k v hmem hk
      | some s => exact ih _ _ p k v hmem hk

theorem sweetenLoop_fields_dropLast (args : List Any) :
    ∀ (i : Nat) (st : SweetenState) (p : Nat) (x : Any),
      ScanItem.orphan p x ∈ scanItems i args →
      (sweetenLoop i args st).fields = (sweetenLoop i args.dropLast st).fields := by
  induction args using scan_induction with
  | hnil => intro i st p x h; simp [scanItems] at h
  | hone cur rest h ih =>
    intro i st p x hmem
    have hmem1 : ScanItem.orphan p x ∈ scanItems (i + 1) rest := by
      rcases asField_or_asError cur h with ⟨f, rfl⟩ | ⟨msg, rfl⟩
      · rw [scanItems_field] at hmem; simpa using hmem
      · rw [scanItems_error] at hmem; simpa using hmem
    have hne : rest ≠ [] := by
      rintro rfl
      simp [scanItems] at hmem1
    rw [List.dropLast_cons_of_ne_nil hne]
    rcases asField_or_asError cur h with ⟨f, rfl⟩ | ⟨msg, rfl⟩
    · rw [sweetenLoop_field, sweetenLoop_field]
      exact ih _ _ p x hmem1
    · rw [sweetenLoop_error, sweetenLoop_error]
      split
      · exact ih _ _ p x hmem1
      · exact ih _ _ p x hmem1
  | hlast cur h1 h2 =>
    intro i st p x _
    rw [sweetenLoop_last i cur st h1 h2]
    simp [sweetenLoop]
  | hpair cur val rest h1 h2 ih =>
    intro i st p x hmem
    rw [scanItems_pair i cur val rest h1 h2, List.mem_cons] at hmem
    rcases hmem with heq | hmem
    · cases heq
    · have hne : rest ≠ [] := by
        rintro rfl
        simp [scanItems] at hmem
      rw [List.dropLast_cons_of_ne_nil (by simp), List.dropLast_cons_of_ne_nil hne,
        sweetenLoop_pair i cur val rest st h1 h2, sweetenLoop_pair i cur val _ st h1 h2]
      cases hc : cur.asString with
      | none => exact ih _ _ p x hmem
      | some s => exact ih _ _ p x hmem

theorem scanItems_orphans_length (args : List Any) :
    ∀ i : Nat, ((scanItems i args).filterMap ScanItem.orphan?).length ≤ 1 := by
  induction args using scan_induction with
  | hnil => intro i; simp [scanItems]
  | hone cur rest h ih =>
    intro i
    rcases asField_or_asError cur h with ⟨f, rfl⟩ | ⟨msg, rfl⟩
    · rw [scanItems_field]; simpa [ScanItem.orphan?] using ih (i + 1)
    · rw [scanItems_error]; simpa [ScanItem.orphan?] using ih (i + 1)
  | hlast cur h1 h2 => intro i; simp [scanItems_last i cur h1 h2, ScanItem.orphan?]
  | hpair cur val rest h1 h2 ih =>
    intro i
    rw [scanItems_pair i cur val rest h1 h2]
    simpa [ScanItem.orphan?] using ih (i + 2)

/-- C9: a pair formed by the scan of `sweetenFields` whose key is not a string sits at
its recorded position in the argument list, is recorded as an invalid pair and contributes
no field (the returned fields are those for the list without the pair); the recorded
invalid pairs are exactly such pairs, with strictly increasing positions; when there is
one, the log ends with a single `errMsgNonStringKey` entry listing them all, and
otherwise no entry has that message. -/
theorem sweetenFields_nonStringKey (args : List Any) :
    (∀ (p : Nat) (k v : Any), ScanItem.pair p k v ∈ scanItems 0 args → k.asString = none →
        args[p]? = some k ∧ args[p + 1]? = some v ∧
        (⟨p, k, v⟩ : invalidPair) ∈ (scanItems 0 args).filterMap ScanItem.invalid? ∧
        (sweetenFields args).fields =
          (sweetenFields ((args.eraseIdx p).eraseIdx p)).fields) ∧
      (∀ q ∈ (scanItems 0 args).filterMap ScanItem.invalid?,
        ScanItem.pair q.position q.key q.value ∈ scanItems 0 args ∧ q.key.asString = none) ∧
      (((scanItems 0 args).filterMap ScanItem.invalid?).map invalidPair.position).Pairwise
        (fun a b => a < b) ∧
      ((scanItems 0 args).filterMap ScanItem.invalid? ≠ [] →
        ∃ scanLogs : List LoggedEntry,
          (sweetenFields args).logs =
            scanLogs ++ [nonStringKeyEntry ((scanItems 0 args).filterMap ScanItem.invalid?)] ∧
          ∀ l ∈ scanLogs, l.Message ≠ errMsgNonStringKey) ∧
      ((scanItems 0 args).filterMap ScanItem.invalid? = [] →
        ∀ l ∈ (sweetenFields args).logs, l.Message ≠ errMsgNonStringKey) := by
  have hloop : ∀ l ∈ (sweetenLoop 0 args ⟨[], [], false, []⟩).logs,
      l.Message ≠ errMsgNonStringKey := by
    rw [sweetenLoop_eq_foldl]
    exact foldl_stepItem_nonStringKey _ _ (by simp)
  refine ⟨?_, ?_, ?_, ?_, ?_⟩
  · intro p k v hmem hk
    obtain ⟨h0, h1⟩ := scanItems_pair_at args p k v hmem
    refine ⟨h0, h1, (mem_invalid_iff _ _).mpr ⟨hmem, hk⟩, ?_⟩
    rw [sweetenFields_fields, sweetenFields_fields]
    exact sweetenLoop_fields_erase_pair args 0 _ p k v hmem hk
  · intro q hq
    exact (mem_invalid_iff _ _).mp hq
  · exact (scanItems_pos_increasing args 0).sublist (invalid_positions_sublist _)
  · intro hne
    refine ⟨(sweetenLoop 0 args ⟨[], [], false, []⟩).logs, ?_, hloop⟩
    rw [sweetenFields_logs, sweetenFields_invalid, if_neg hne]
  · intro hnil l hl
    rw [sweetenFields_logs, sweetenFields_invalid, if_pos hnil, List.append_nil] at hl
    exact hloop l hl

/-- Witness of `sweetenFields_nonStringKey`: the arguments `"a", "1", b="2", 6, "x", "c",
"3"`, where the scan forms the pair `(6, "x")` at position 3. -/
theorem sweetenFields_nonStringKey_witness :
    ScanItem.pair 3 (Any.int 6) (Any.str "x") ∈
        scanItems 0 [Any.str "a", Any.str "1", Any.field (.mk "b" (.str "2")), Any.int 6,
          Any.str "x", Any.str "c", Any.str "3"] ∧
      (Any.int 6).asString = none ∧
      ([Any.str "a", Any.str "1", Any.field (.mk "b" (.str "2")), Any.int 6,
          Any.str "x", Any.str "c", Any.str "3"][3]? = some (Any.int 6) ∧
        [Any.str "a", Any.str "1", Any.field (.mk "b" (.str "2")), Any.int 6,
          Any.str "x", Any.str "c", Any.str "3"][3 + 1]? = some (Any.str "x") ∧
        (⟨3, Any.int 6, Any.str "x"⟩ : invalidPair) ∈
          (scanItems 0 [Any.str "a", Any.str "1", Any.field (.mk "b" (.str "2")), Any.int 6,
            Any.str "x", Any.str "c", Any.str "3"]).filterMap ScanItem.invalid? ∧
        (sweetenFields [Any.str "a", Any.str "1", Any.field (.mk "b" (.str "2")), Any.int 6,
            Any.str "x", Any.str "c", Any.str "3"]).fields =
          (sweetenFields (([Any.str "a", Any.str "1", Any.field (.mk "b" (.str "2")),
            Any.int 6, Any.str "x", Any.str "c", Any.str "3"].eraseIdx 3).eraseIdx 3)).fields) :=
  ⟨by decide, rfl, (sweetenFields_nonStringKey _).1 3 (Any.int 6) (Any.str "x") (by decide) rfl⟩

/-- C10: the scan of `sweetenFields` ends on an element left without a value exactly when
it arrives at the final element as the current item and that element is neither a typed
Field nor an error; then the returned fields are those for the list without its final
element and exactly one `errMsgOddNumber` entry is logged, carrying that element; for every
other argument list no `errMsgOddNumber` entry is logged. -/
theorem sweetenFields_oddNumber (args : List Any) :
    (∀ (p : Nat) (x : Any), ScanItem.orphan p x ∈ scanItems 0 args ↔
        ((∃ it ∈ scanItems 0 args, it.pos = p) ∧ p + 1 = args.length ∧ args[p]? = some x ∧
          x.asField = none ∧ x.asError = none)) ∧
      (∀ (p : Nat) (x : Any), ScanItem.orphan p x ∈ scanItems 0 args →
        (sweetenFields args).fields = (sweetenFields args.dropLast).fields ∧
        (sweetenFields args).logs.filter (fun l => l.Message = errMsgOddNumber) =
          [oddNumberEntry x]) ∧
      ((∀ (p : Nat) (x : Any), ScanItem.orphan p x ∉ scanItems 0 args) →
        (sweetenFields args).logs.filter (fun l => l.Message = errMsgOddNumber) = []) := by
  have hodd : (sweetenFields args).logs.filter (fun l => l.Message = errMsgOddNumber) =
      ((scanItems 0 args).filterMap ScanItem.orphan?).map oddNumberEntry := by
    have hne : errMsgNonStringKey ≠ errMsgOddNumber := by decide
    have hloop := foldl_stepItem_oddNumber (scanItems 0 args) ⟨[], [], false, []⟩
    simp only [List.filter_nil, List.nil_append] at hloop
    rw [sweetenFields_logs, List.filter_append, sweetenLoop_eq_foldl, hloop]
    by_cases hinv : ((scanItems 0 args).foldl stepItem ⟨[], [], false, []⟩).invalid = []
    · simp [hinv]
    · simp [hinv, nonStringKeyEntry, hne]
  refine ⟨?_, ?_, ?_⟩
  · intro p x
    constructor
    · intro hmem
      obtain ⟨_, B, hB⟩ := scanItems_mem_suffix args 0 _ hmem
      simp only [ScanItem.pos, Nat.sub_zero] at hB
      obtain ⟨hdrop, hf, he⟩ := scanItems_head_orphan _ _ _ _ _ hB
      refine ⟨⟨_, hmem, rfl⟩, ?_, ?_, hf, he⟩
      · have hlen := congrArg List.length hdrop
        simp only [List.length_drop, List.length_singleton] at hlen
        omega
      · have h0 : (args.drop p)[0]? = some x := by rw [hdrop]; simp
        rw [List.getElem?_drop] at h0
        simpa using h0
    · rintro ⟨⟨it, hit, rfl⟩, hlen, hx, hf, he⟩
      obtain ⟨_, B, hB⟩ := scanItems_mem_suffix args 0 _ hit
      simp only [Nat.sub_zero] at hB
      have hdrop : args.drop it.pos = [x] := by
        apply List.ext_getElem?
        intro n
        rw [List.getElem?_drop]
        cases n with
        | zero => simpa using hx
        | succ m =>
          have : args[it.pos + (m + 1)]? = none := by
            apply List.getElem?_eq_none; omega
          simp [this]
      rw [hdrop, scanItems_last _ x hf he] at hB
      simp only [List.cons.injEq] at hB
      rw [hB.1]
      exact hit
  · intro p x hmem
    refine ⟨?_, ?_⟩
    · rw [sweetenFields_fields, sweetenFields_fields]
      exact sweetenLoop_fields_dropLast args 0 _ p x hmem
    · rw [hodd]
      have hx : x ∈ (scanItems 0 args).filterMap ScanItem.orphan? :=
        List.mem_filterMap.mpr ⟨_, hmem, rfl⟩
      have hlen := scanItems_orphans_length args 0
      match horph : (scanItems 0 args).filterMap ScanItem.orphan?, hx, hlen with
      | [y], hx, _ =>
        simp only [List.mem_singleton] at hx
        subst hx
        rfl
      | _ :: _ :: _, _, hlen => simp at hlen
  · intro hnone
    rw [hodd]
    have : (scanItems 0 args).filterMap ScanItem.orphan? = [] := by
      rw [List.filterMap_eq_nil_iff]
      intro it hit
      cases it with
      | orphan p x => exact absurd hit (hnone p x)
      | typed p f => rfl
      | err p e => rfl
      | pair p k v => rfl
    rw [this]
    rfl

/-- Witness of `sweetenFields_oddNumber`: the arguments `"a", "1", b="2", "c", "3", "d"`,
where the scan ends on `"d"` at position 5. -/
theorem sweetenFields_oddNumber_witness :
    ScanItem.orphan 5 (Any.str "d") ∈
        scanItems 0 [Any.str "a", Any.str "1", Any.field (.mk "b" (.str "2")), Any.str "c",
          Any.str "3", Any.str "d"] ∧
      ((sweetenFields [Any.str "a", Any.str "1", Any.field (.mk "b" (.str "2")), Any.str "c",
          Any.str "3", Any.str "d"]).fields =
          (sweetenFields [Any.str "a", Any.str "1", Any.field (.mk "b" (.str "2")),
            Any.str "c", Any.str "3", Any.str "d"].dropLast).fields ∧
        (sweetenFields [Any.str "a", Any.str "1", Any.field (.mk "b" (.str "2")), Any.str "c",
          Any.str "3", Any.str "d"]).logs.filter (fun l => l.Message = errMsgOddNumber) =
          [oddNumberEntry (Any.str "d")]) :=
  ⟨by decide, (sweetenFields_oddNumber _).2.1 5 (Any.str "d") (by decide)⟩

/-! ## How many diagnostics one call logs -/

theorem sweetenFields_logs_oddNumber (args : List Any) :
    (sweetenFields args).logs.filter (fun l => l.Message = errMsgOddNumber) =
      ((scanItems 0 args).filterMap ScanItem.orphan?).map oddNumberEntry := by
  have hne : errMsgNonStringKey ≠ errMsgOddNumber := by decide
  have hloop := foldl_stepItem_oddNumber (scanItems 0 args) ⟨[], [], false, []⟩
  simp only [List.filter_nil, List.nil_append] at hloop
  rw [sweetenFields_logs, List.filter_append, sweetenLoop_eq_foldl, hloop]
  by_cases hinv : ((scanItems 0 args).foldl stepItem ⟨[], [], false, []⟩).invalid = []
  · simp [hinv]
  · simp [hinv, nonStringKeyEntry, hne]

theorem sweetenFields_logs_nonStringKey (args : List Any) :
    ((sweetenFields args).logs.filter (fun l => l.Message = errMsgNonStringKey)).length ≤ 1 := by
  have hloop : (sweetenLoop 0 args ⟨[], [], false, []⟩).logs.filter
      (fun l => l.Message = errMsgNonStringKey) = [] := by
    rw [List.filter_eq_nil_iff]
    intro l hl
    have : ∀ l ∈ (sweetenLoop 0 args ⟨[], [], false, []⟩).logs,
        l.Message ≠ errMsgNonStringKey := by
      rw [sweetenLoop_eq_foldl]
      exact foldl_stepItem_nonStringKey _ _ (by simp)
    simpa using this l hl
  rw [sweetenFields_logs, List.filter_append, hloop, List.nil_append]
  split
  · simp
  · exact (List.length_filter_le _ _).trans (by simp)

/-- C11, as amended: one call of `sweetenFields` logs at most one `errMsgOddNumber` entry
and at most one `errMsgNonStringKey` entry, and it logs one `errMsgMultiple` entry for
each error the scan meets after the first one. -/
theorem sweetenFields_diagnostic_counts (args : List Any) :
    ((sweetenFields args).logs.filter (fun l => l.Message = errMsgOddNumber)).length ≤ 1 ∧
      ((sweetenFields args).logs.filter (fun l => l.Message = errMsgNonStringKey)).length ≤ 1 ∧
      ((sweetenFields args).logs.filter (fun l => l.Message = errMsgMultiple)).length =
        ((scanItems 0 args).filterMap ScanItem.error?).length - 1 := by
  refine ⟨?_, sweetenFields_logs_nonStringKey args, ?_⟩
  · rw [sweetenFields_logs_oddNumber, List.length_map]
    exact scanItems_orphans_length args 0
  · rw [sweetenFields_logs_multiple, List.length_map, List.length_tail]

/-- C11, as stated, fails: three errors in one call give two `errMsgMultiple` entries. -/
theorem sweetenFields_two_multiple_entries :
    (sweetenFields [Any.error "e1", Any.error "e2", Any.error "e3"]).logs =
        [multipleEntry (Any.error "e2"), multipleEntry (Any.error "e3")] ∧
      ((sweetenFields [Any.error "e1", Any.error "e2", Any.error "e3"]).logs.filter
        (fun l => l.Message = errMsgMultiple)).length = 2 := by
  decide

/-! ## The state stored by `AddKV` and read by `mergeKvs` -/

theorem mergeFields_nil_right (cs : List Any) : mergeFields cs [] = some cs := by
  simp [mergeFields, mergeLoop]

theorem sweetenFields_nil : sweetenFields [] = ⟨[], []⟩ := by
  simp [sweetenFields]

/-- C12: the state stored in `AddKV(ctx, args)` is `mergeFields` of the state of `ctx`
(empty when absent) and the sweetened arguments; with no arguments the context is returned
unchanged; and on a state of typed fields the call completes, every entry of the new state
named like a sweetened field being the last sweetened field of that name and every other
entry being the entry of the old state at the same position. -/
theorem AddKV_state (ctx : Context) (args : List Any) :
    (AddKV ctx args).map getKvsFromContext =
        mergeFields (getKvsFromContext ctx) (sweetenFields args).fields ∧
      AddKV ctx [] = some ctx ∧
      (∀ s : List Field, getKvsFromContext ctx = s.map Any.field →
        ∃ (ctx1 : Context) (r t : List Field),
          AddKV ctx args = some ctx1 ∧ getKvsFromContext ctx1 = r.map Any.field ∧
          (sweetenFields args).fields = t.map Any.field ∧
          (∀ e ∈ r, e.Key ∈ t.map Field.Key → lastNamed e.Key t = some e) ∧
          (∀ (i : Nat) (e : Field), r[i]? = some e → e.Key ∉ t.map Field.Key →
            s[i]? = some e)) := by
  refine ⟨?_, by simp [AddKV], ?_⟩
  · unfold AddKV
    by_cases h0 : args.length = 0
    · have hnil : args = [] := List.length_eq_zero.mp h0
      subst hnil
      simp [sweetenFields_nil, mergeFields_nil_right]
    · simp only [h0, if_false]
      cases mergeFields (getKvsFromContext ctx) (sweetenFields args).fields with
      | none => rfl
      | some m => rfl
  · intro s hs
    obtain ⟨t, ht⟩ := sweetenFields_typed args
    by_cases h0 : args.length = 0
    · have hnil : args = [] := List.length_eq_zero.mp h0
      subst hnil
      have ht0 : t = [] := by
        rw [sweetenFields_nil] at ht
        simpa using ht.symm
      subst ht0
      refine ⟨ctx, s, [], by simp [AddKV], hs, ht, ?_, ?_⟩
      · intro e _ h; simp at h
      · intro i e h _; exact h
    · refine ⟨⟨some ((t.foldl mergeStep s).map Any.field)⟩, t.foldl mergeStep s, t, ?_, rfl, ht,
        foldl_mergeStep_last s t, foldl_mergeStep_untouched s t⟩
      simp [AddKV, h0, hs, ht, mergeFields_typed]

/-- Witness of `AddKV_state`: the state `int=1` and the arguments `"string", "2", "int",
3`. -/
theorem AddKV_state_witness :
    getKvsFromContext ⟨some [Any.field (.mk "int" (.int 1))]⟩ =
        [Field.mk "int" (.int 1)].map Any.field ∧
      ∃ (ctx1 : Context) (r t : List Field),
        AddKV ⟨some [Any.field (.mk "int" (.int 1))]⟩
            [Any.str "string", Any.str "2", Any.str "int", Any.int 3] = some ctx1 ∧
          getKvsFromContext ctx1 = r.map Any.field ∧
          (sweetenFields [Any.str "string", Any.str "2", Any.str "int", Any.int 3]).fields =
            t.map Any.field ∧
          (∀ e ∈ r, e.Key ∈ t.map Field.Key → lastNamed e.Key t = some e) ∧
          (∀ (i : Nat) (e : Field), r[i]? = some e → e.Key ∉ t.map Field.Key →
            [Field.mk "int" (.int 1)][i]? = some e) :=
  ⟨rfl, (AddKV_state _ _).2.2 _ rfl⟩

/-- C13: `mergeFields(c, [])` is `c`, and `mergeKvs` without call arguments returns the
fields accumulated in the context, unchanged. -/
theorem mergeFields_no_call_fields (cs : List Any) (ctx : Context) :
    mergeFields cs [] = some cs ∧ mergeKvs ctx [] = some (getKvsFromContext ctx) := by
  refine ⟨mergeFields_nil_right cs, ?_⟩
  unfold mergeKvs
  by_cases h0 : (getKvsFromContext ctx).length = 0
  · have hnil : getKvsFromContext ctx = [] := List.length_eq_zero.mp h0
    simp [hnil, sweetenFields_nil]
  · simp [h0, sweetenFields_nil, mergeFields_nil_right]

/-! ## No run-time failure -/

theorem sweetenLoop_asField (i : Nat) (cur : Any) (f : Field) (rest : List Any)
    (st : SweetenState) (hf : cur.asField = some f) :
    sweetenLoop i (cur :: rest) st =
      sweetenLoop (i + 1) rest { st with fields := st.fields ++ [Any.field f] } := by
  cases cur <;> simp [Any.asField] at hf
  subst hf
  exact sweetenLoop_field i _ rest st

theorem sweetenLoop_asError (i : Nat) (cur err : Any) (rest : List Any) (st : SweetenState)
    (hf : cur.asField = none) (he : cur.asError = some err) :
    sweetenLoop i (cur :: rest) st =
      if (!st.seenError) = true then
        sweetenLoop (i + 1) rest
          { st with seenError := true, fields := st.fields ++ [Any.field (zapError err)] }
      else
        sweetenLoop (i + 1) rest
          { st with logs := st.logs ++ [⟨errMsgMultiple, .plain (zapError err)⟩] } := by
  cases cur <;> simp [Any.asError] at he
  subst he
  rw [sweetenLoop_error]
  cases hs : st.seenError <;> simp

theorem sweetenIndexed_eq (args : List Any) :
    ∀ (fuel i : Nat) (st : SweetenState), i ≤ args.length → args.length - i < fuel →
      sweetenIndexed args fuel i st = some (sweetenLoop i (args.drop i) st) := by
  intro fuel
  induction fuel with
  | zero => intro i st _ h; omega
  | succ fuel ih =>
    intro i st hle hfuel
    by_cases hlt : i < args.length
    · have hcur : args[i]? = some args[i] := List.getElem?_eq_getElem hlt
      have hdrop : args.drop i = args[i] :: args.drop (i + 1) := List.drop_eq_getElem_cons hlt
      rw [sweetenIndexed, if_pos hlt, hcur, hdrop]
      dsimp only
      cases hf : args[i].asField with
      | some f =>
        dsimp only
        rw [ih (i + 1) _ (by omega) (by omega), sweetenLoop_asField i _ f _ st hf]
      | none =>
        cases he : args[i].asError with
        | some err =>
          dsimp only
          rw [sweetenLoop_asError i _ err _ st hf he]
          split
          · rw [ih (i + 1) _ (by omega) (by omega)]
          · rw [ih (i + 1) _ (by omega) (by omega)]
        | none =>
          dsimp only
          by_cases hlast : i = args.length - 1
          · have hnil : args.drop (i + 1) = [] := by
              apply List.drop_eq_nil_of_le; omega
            rw [if_pos hlast, hnil, sweetenLoop_last i _ st hf he]
          · have hlt2 : i + 1 < args.length := by omega
            have hval : args[i + 1]? = some args[i + 1] := List.getElem?_eq_getElem hlt2
            have hdrop2 : args.drop (i + 1) = args[i + 1] :: args.drop (i + 2) :=
              List.drop_eq_getElem_cons hlt2
            rw [if_neg hlast, hval, hdrop2, sweetenLoop_pair i _ _ _ st hf he]
            dsimp only
            cases hk : args[i].asString with
            | none => dsimp only; rw [ih (i + 2) _ (by omega) (by omega)]
            | some keyStr => dsimp only; rw [ih (i + 2) _ (by omega) (by omega)]
    · have hnil : args.drop i = [] := by
        apply List.drop_eq_nil_of_le; omega
      rw [sweetenIndexed, if_neg hlt, hnil]
      simp [sweetenLoop]

/-- C14: for every chain of `AddKV` calls from the state-free root and every argument
list, the chain completes, and in the context reached both `AddKV` and `mergeKvs`
complete: the loop of `sweetenFields`, read by index, ends without an index out of range
in the state of the scan, `sweetenFields` returns typed fields only, and the state of the
context consists of typed fields only. -/
theorem AddKV_mergeKvs_complete (calls : List (List Any)) (args : List Any) :
    ∃ (ctx ctx1 : Context) (r : List Any) (s t : List Field),
      addKVs background calls = some ctx ∧ AddKV ctx args = some ctx1 ∧
      mergeKvs ctx args = some r ∧
      sweetenIndexed args (args.length + 1) 0 ⟨[], [], false, []⟩ =
        some (sweetenLoop 0 args ⟨[], [], false, []⟩) ∧
      (sweetenFields args).fields = t.map Any.field ∧
      getKvsFromContext ctx = s.map Any.field := by
  obtain ⟨ctx, s, hctx, hs, hn⟩ := addKVs_preserves_nodup calls background [] rfl (by simp)
  obtain ⟨ctx1, _, h1, _, _⟩ := AddKV_preserves_nodup ctx args s hs hn
  obtain ⟨t, ht⟩ := sweetenFields_typed args
  have hidx := sweetenIndexed_eq args (args.length + 1) 0 ⟨[], [], false, []⟩
    (Nat.zero_le _) (by omega)
  rw [List.drop_zero] at hidx
  have hmerge : ∃ r, mergeKvs ctx args = some r := by
    unfold mergeKvs
    by_cases h0 : (getKvsFromContext ctx).length = 0
    · exact ⟨(sweetenFields args).fields, by simp [h0]⟩
    · exact ⟨(t.foldl mergeStep s).map Any.field, by
        simp only [h0, if_false]; rw [hs, ht, mergeFields_typed]⟩
  obtain ⟨r, hr⟩ := hmerge
  exact ⟨ctx, ctx1, r, s, t, hctx, h1, hr, hidx, ht, hs⟩

/-! ## Names of the fields built from pairs -/

theorem foldl_stepItem_fields_mem (items : List ScanItem) :
    ∀ (st : SweetenState) (a : Any),
      (a ∈ st.fields → a ∈ (items.foldl stepItem st).fields) ∧
      (∀ it ∈ items, it.error? = none → a ∈ it.plainFields →
        a ∈ (items.foldl stepItem st).fields) := by
  induction items with
  | nil => intro st a; exact ⟨fun h => h, fun it h => by simp at h⟩
  | cons it0 rest ih =>
    intro st a
    have hkeep : a ∈ st.fields → a ∈ (stepItem st it0).fields := by
      intro h
      cases it0 with
      | typed p f => simp [stepItem, h]
      | err p e => cases hs : st.seenError <;> simp [stepItem, hs, h]
      | pair p k v => cases hk : k.asString <;> simp [stepItem, hk, h]
      | orphan p x => simpa [stepItem] using h
    refine ⟨fun h => (ih _ a).1 (hkeep h), ?_⟩
    intro it hit herr ha
    rw [List.foldl_cons]
    rw [List.mem_cons] at hit
    rcases hit with rfl | hit
    · apply (ih _ a).1
      cases it with
      | typed p f => simp only [ScanItem.plainFields, List.mem_singleton] at ha; simp [stepItem, ha]
      | err p e => simp [ScanItem.plainFields] at ha
      | pair p k v =>
        cases hk : k.asString with
        | none => simp [ScanItem.plainFields, hk] at ha
        | some keyStr =>
          simp only [ScanItem.plainFields, hk, List.mem_singleton] at ha
          simp [stepItem, hk, ha]
      | orphan p x => simp [ScanItem.plainFields] at ha
    · exact (ih _ a).2 it hit herr ha

theorem foldl_stepItem_fields_parts (items : List ScanItem)
    (hkeys : ∀ (p : Nat) (v : Any), ScanItem.pair p (Any.str "") v ∉ items) :
    ∀ st : SweetenState, ∃ parts : List (List Any),
      (items.foldl stepItem st).fields = st.fields ++ parts.flatten ∧
      List.Forall₂ (fun (it : ScanItem) (part : List Any) =>
        (∃ p f, it = ScanItem.typed p f ∧ part = [Any.field f]) ∨
        (∃ p e, it = ScanItem.err p e ∧ (part = [Any.field (zapError e)] ∨ part = [])) ∨
        (∃ p k v, it = ScanItem.pair p k v ∧ k.asString = none ∧ part = []) ∨
        (∃ p keyStr v, it = ScanItem.pair p (Any.str keyStr) v ∧
          part = [Any.field (zapAny keyStr v)] ∧ (zapAny keyStr v).Key = keyStr ∧
          (zapAny keyStr v).Key ≠ "") ∨
        (∃ p x, it = ScanItem.orphan p x ∧ part = [])) items parts := by
  induction items with
  | nil => intro st; exact ⟨[], by simp, List.Forall₂.nil⟩
  | cons it rest ih =>
    intro st
    have hrest : ∀ (p : Nat) (v : Any), ScanItem.pair p (Any.str "") v ∉ rest :=
      fun p v h => hkeys p v (List.mem_cons_of_mem _ h)
    obtain ⟨parts, hfields, hall⟩ := ih hrest (stepItem st it)
    rw [List.foldl_cons, hfields]
    cases it with
    | typed p f =>
      exact ⟨[Any.field f] :: parts, by simp [stepItem],
        List.Forall₂.cons (Or.inl ⟨p, f, rfl, rfl⟩) hall⟩
    | err p e =>
      cases hs : st.seenError
      · exact ⟨[Any.field (zapError e)] :: parts, by simp [stepItem, hs],
          List.Forall₂.cons (Or.inr (Or.inl ⟨p, e, rfl, Or.inl rfl⟩)) hall⟩
      · exact ⟨[] :: parts, by simp [stepItem, hs],
          List.Forall₂.cons (Or.inr (Or.inl ⟨p, e, rfl, Or.inr rfl⟩)) hall⟩
    | pair p k v =>
      cases hk : k.asString with
      | none =>
        exact ⟨[] :: parts, by simp [stepItem, hk],
          List.Forall₂.cons (Or.inr (Or.inr (Or.inl ⟨p, k, v, rfl, hk, rfl⟩))) hall⟩
      | some keyStr =>
        have hkstr : k = Any.str keyStr := by
          cases k <;> simp [Any.asString] at hk
          rw [hk]
        subst hkstr
        have hne : keyStr ≠ "" := by
          rintro rfl
          exact hkeys p v (List.mem_cons_self _ _)
        exact ⟨[Any.field (zapAny keyStr v)] :: parts, by simp [stepItem, Any.asString],
          List.Forall₂.cons
            (Or.inr (Or.inr (Or.inr (Or.inl ⟨p, keyStr, v, rfl, rfl, rfl, hne⟩)))) hall⟩
    | orphan p x =>
      exact ⟨[] :: parts, by simp [stepItem],
        List.Forall₂.cons (Or.inr (Or.inr (Or.inr (Or.inr ⟨p, x, rfl, rfl⟩)))) hall⟩

/-- C16, as amended: when no pair formed by the scan has the empty string as its key, the
list returned by `sweetenFields` is exactly the concatenation, in scan order, of what each
iteration appends, and an iteration that forms a key/value pair appends nothing (key not a
string) or exactly one field, built by `zap.Any` from the string key and the value, whose
name is that key and is not empty; a typed field appends itself, an error its `zap.Error`
field or nothing, a last element without value nothing. In particular the field of every
such pair is in the returned list. -/
theorem sweetenFields_pair_names (args : List Any)
    (hkeys : ∀ (p : Nat) (v : Any), ScanItem.pair p (Any.str "") v ∉ scanItems 0 args) :
    (∃ parts : List (List Any),
        (sweetenFields args).fields = parts.flatten ∧
        List.Forall₂ (fun (it : ScanItem) (part : List Any) =>
          (∃ p f, it = ScanItem.typed p f ∧ part = [Any.field f]) ∨
          (∃ p e, it = ScanItem.err p e ∧ (part = [Any.field (zapError e)] ∨ part = [])) ∨
          (∃ p k v, it = ScanItem.pair p k v ∧ k.asString = none ∧ part = []) ∨
          (∃ p keyStr v, it = ScanItem.pair p (Any.str keyStr) v ∧
            part = [Any.field (zapAny keyStr v)] ∧ (zapAny keyStr v).Key = keyStr ∧
            (zapAny keyStr v).Key ≠ "") ∨
          (∃ p x, it = ScanItem.orphan p x ∧ part = [])) (scanItems 0 args) parts) ∧
      ∀ (p : Nat) (k v : Any), ScanItem.pair p k v ∈ scanItems 0 args →
        ∀ a ∈ (ScanItem.pair p k v).plainFields,
          a ∈ (sweetenFields args).fields ∧
          ∃ keyStr, k = Any.str keyStr ∧ a = Any.field (zapAny keyStr v) ∧
            (zapAny keyStr v).Key = keyStr ∧ (zapAny keyStr v).Key ≠ "" := by
  refine ⟨?_, ?_⟩
  · obtain ⟨parts, hfields, hall⟩ :=
      foldl_stepItem_fields_parts (scanItems 0 args) hkeys ⟨[], [], false, []⟩
    refine ⟨parts, ?_, hall⟩
    rw [sweetenFields_fields, sweetenLoop_eq_foldl, hfields]
    simp
  · intro p k v hmem a ha
    refine ⟨?_, ?_⟩
    · rw [sweetenFields_fields, sweetenLoop_eq_foldl]
      exact (foldl_stepItem_fields_mem _ _ a).2 _ hmem rfl ha
    · cases k with
      | str keyStr =>
        simp only [ScanItem.plainFields, Any.asString, List.mem_singleton] at ha
        refine ⟨keyStr, rfl, ha, rfl, ?_⟩
        intro hempty
        have hk : keyStr = "" := hempty
        subst hk
        exact hkeys p v hmem
      | nil => simp [ScanItem.plainFields, Any.asString] at ha
      | bool b => simp [ScanItem.plainFields, Any.asString] at ha
      | int n => simp [ScanItem.plainFields, Any.asString] at ha
      | error msg => simp [ScanItem.plainFields, Any.asString] at ha
      | field f => simp [ScanItem.plainFields, Any.asString] at ha

/-- Witness of `sweetenFields_pair_names`: the arguments `"a", 1, 6, "x"`. -/
theorem sweetenFields_pair_names_witness :
    (∀ (p : Nat) (v : Any), ScanItem.pair p (Any.str "") v ∉
        scanItems 0 [Any.str "a", Any.int 1, Any.int 6, Any.str "x"]) ∧
      ((∃ parts : List (List Any),
        (sweetenFields [Any.str "a", Any.int 1, Any.int 6, Any.str "x"]).fields =
          parts.flatten ∧
        List.Forall₂ (fun (it : ScanItem) (part : List Any) =>
          (∃ p f, it = ScanItem.typed p f ∧ part = [Any.field f]) ∨
          (∃ p e, it = ScanItem.err p e ∧ (part = [Any.field (zapError e)] ∨ part = [])) ∨
          (∃ p k v, it = ScanItem.pair p k v ∧ k.asString = none ∧ part = []) ∨
          (∃ p keyStr v, it = ScanItem.pair p (Any.str keyStr) v ∧
            part = [Any.field (zapAny keyStr v)] ∧ (zapAny keyStr v).Key = keyStr ∧
            (zapAny keyStr v).Key ≠ "") ∨
          (∃ p x, it = ScanItem.orphan p x ∧ part = []))
          (scanItems 0 [Any.str "a", Any.int 1, Any.int 6, Any.str "x"]) parts) ∧
      ∀ (p : Nat) (k v : Any),
        ScanItem.pair p k v ∈ scanItems 0 [Any.str "a", Any.int 1, Any.int 6, Any.str "x"] →
        ∀ a ∈ (ScanItem.pair p k v).plainFields,
          a ∈ (sweetenFields [Any.str "a", Any.int 1, Any.int 6, Any.str "x"]).fields ∧
          ∃ keyStr, k = Any.str keyStr ∧ a = Any.field (zapAny keyStr v) ∧
            (zapAny keyStr v).Key = keyStr ∧ (zapAny keyStr v).Key ≠ "") :=
  have h : ∀ (p : Nat) (v : Any), ScanItem.pair p (Any.str "") v ∉
      scanItems 0 [Any.str "a", Any.int 1, Any.int 6, Any.str "x"] := by
    intro p v hmem
    simp [scanItems, Any.asField, Any.asError] at hmem
  ⟨h, sweetenFields_pair_names _ h⟩

/-- C16, as stated, fails: the empty string is a string key, and the field built from the
pair `"", 1` has the empty name. -/
theorem sweetenFields_empty_name :
    (sweetenFields [Any.str "", Any.int 1]).fields = [Any.field (Field.mk "" (Any.int 1))] ∧
      scanItems 0 [Any.str "", Any.int 1] = [ScanItem.pair 0 (Any.str "") (Any.int 1)] ∧
      (Field.mk "" (Any.int 1)).Key = "" := by
  decide

/-! ## Merging the same caller fields again -/

theorem lastNamed_key (n : String) (fs : List Field) (g : Field)
    (h : lastNamed n fs = some g) : g.Key = n := by
  unfold lastNamed at h
  have hmem := List.mem_of_mem_getLast? h
  simpa using (List.mem_filter.mp hmem).2

theorem lastNamed_eq_none (n : String) (fs : List Field) (h : n ∉ fs.map Field.Key) :
    lastNamed n fs = none := by
  unfold lastNamed
  rw [List.getLast?_eq_none_iff, List.filter_eq_nil_iff]
  intro g hg hk
  exact h (List.mem_map.mpr ⟨g, hg, by simpa using hk⟩)

theorem foldl_mergeStep_present_names (f : List Field) :
    ∀ r : List Field, (∀ g ∈ f, g.Key ∈ r.map Field.Key) →
      f.foldl mergeStep r = r.map (fun e => (lastNamed e.Key f).getD e) := by
  induction f using List.reverseRecOn with
  | nil => intro r _; simp [lastNamed]
  | append_singleton f g ih =>
    intro r h
    have hf : ∀ g0 ∈ f, g0.Key ∈ r.map Field.Key :=
      fun g0 hg0 => h g0 (List.mem_append_left _ hg0)
    have hg : g.Key ∈ r.map Field.Key := h g (List.mem_append_right _ (List.mem_singleton_self g))
    rw [List.foldl_append, List.foldl_cons, List.foldl_nil, ih r hf]
    have hkey : ∀ e : Field, ((lastNamed e.Key f).getD e).Key = e.Key := by
      intro e
      cases hl : lastNamed e.Key f with
      | none => rfl
      | some g0 => exact lastNamed_key _ _ _ hl
    have hany : (r.map (fun e => (lastNamed e.Key f).getD e)).any
        (fun o => o.Key = g.Key) = true := by
      obtain ⟨e, he, hek⟩ := List.mem_map.mp hg
      rw [List.any_eq_true]
      exact ⟨_, List.mem_map.mpr ⟨e, he, rfl⟩, decide_eq_true ((hkey e).trans hek)⟩
    unfold mergeStep
    rw [if_pos hany, List.map_map]
    apply List.map_congr_left
    intro e _
    simp only [Function.comp_apply, hkey, lastNamed_concat]
    by_cases hk : e.Key = g.Key
    · simp [hk]
    · have hk2 : ¬ g.Key = e.Key := fun h => hk h.symm
      simp [hk, hk2]

theorem foldl_mergeStep_idem (cs f : List Field) :
    f.foldl mergeStep (f.foldl mergeStep cs) = f.foldl mergeStep cs := by
  rw [foldl_mergeStep_present_names f _ (fun g hg => by
    obtain ⟨e, he, hek⟩ := foldl_mergeStep_present cs f g hg
    exact List.mem_map.mpr ⟨e, he, hek⟩)]
  conv_rhs => rw [← List.map_id (f.foldl mergeStep cs)]
  apply List.map_congr_left
  intro e he
  by_cases hk : e.Key ∈ f.map Field.Key
  · rw [foldl_mergeStep_last cs f e he hk]; rfl
  · rw [lastNamed_eq_none _ _ hk]; rfl

theorem replaceLoop_some_typed (newField : Field) (merged : List Any) :
    ∀ (replaced : Bool) (x : List Any × Bool), replaceLoop newField merged replaced = some x →
      ∃ ms : List Field, merged = ms.map Any.field := by
  induction merged with
  | nil => intro _ _ _; exact ⟨[], rfl⟩
  | cons o rest ih =>
    intro replaced x h
    cases o with
    | field of =>
      simp only [replaceLoop, Any.asField] at h
      split at h
      · cases hr : replaceLoop newField rest true with
        | none => simp [hr] at h
        | some y =>
          obtain ⟨ms, hms⟩ := ih _ _ hr
          exact ⟨of :: ms, by simp [hms]⟩
      · cases hr : replaceLoop newField rest replaced with
        | none => simp [hr] at h
        | some y =>
          obtain ⟨ms, hms⟩ := ih _ _ hr
          exact ⟨of :: ms, by simp [hms]⟩
    | nil => simp [replaceLoop, Any.asField] at h
    | bool b => simp [replaceLoop, Any.asField] at h
    | int n => simp [replaceLoop, Any.asField] at h
    | str s => simp [replaceLoop, Any.asField] at h
    | error msg => simp [replaceLoop, Any.asField] at h

theorem mergeLoop_some_typed (f : List Any) :
    ∀ (merged r : List Any), mergeLoop f merged = some r → f ≠ [] →
      (∃ ms : List Field, merged = ms.map Any.field) ∧ ∃ fs : List Field, f = fs.map Any.field := by
  induction f with
  | nil => intro _ _ _ h; exact absurd rfl h
  | cons new rest ih =>
    intro merged r h _
    cases new with
    | field nf =>
      simp only [mergeLoop, Any.asField] at h
      cases hr : replaceLoop nf merged false with
      | none => simp [hr] at h
      | some x =>
        obtain ⟨ms, hms⟩ := replaceLoop_some_typed nf merged _ _ hr
        refine ⟨⟨ms, hms⟩, ?_⟩
        by_cases hrest : rest = []
        · exact ⟨[nf], by simp [hrest]⟩
        · obtain ⟨m1, rep⟩ := x
          simp only [hr] at h
          have hfs : ∃ fs : List Field, rest = fs.map Any.field := by
            split at h
            · exact (ih _ _ h hrest).2
            · exact (ih _ _ h hrest).2
          obtain ⟨fs, hfs⟩ := hfs
          exact ⟨nf :: fs, by simp [hfs]⟩
    | nil => simp [mergeLoop, Any.asField] at h
    | bool b => simp [mergeLoop, Any.asField] at h
    | int n => simp [mergeLoop, Any.asField] at h
    | str s => simp [mergeLoop, Any.asField] at h
    | error msg => simp [mergeLoop, Any.asField] at h

/-- C17: merging the same caller fields twice changes nothing. On typed fields
`mergeFields cs f` returns a list `r` with `mergeFields r f = r`; and on any two slices,
the second merge fails exactly when the first does and otherwise returns the result of
the first. -/
theorem mergeFields_idempotent (cs f : List Field) (c0 f0 : List Any) :
    (∃ r : List Field,
        mergeFields (cs.map Any.field) (f.map Any.field) = some (r.map Any.field) ∧
        mergeFields (r.map Any.field) (f.map Any.field) = some (r.map Any.field)) ∧
      (mergeFields c0 f0).bind (fun r => mergeFields r f0) = mergeFields c0 f0 := by
  have typed : ∀ cs f : List Field,
      mergeFields ((f.foldl mergeStep cs).map Any.field) (f.map Any.field) =
        some ((f.foldl mergeStep cs).map Any.field) := by
    intro cs f
    rw [mergeFields_typed, foldl_mergeStep_idem]
  refine ⟨⟨f.foldl mergeStep cs, mergeFields_typed cs f, typed cs f⟩, ?_⟩
  cases hm : mergeFields c0 f0 with
  | none => rfl
  | some r =>
    show mergeFields r f0 = some r
    by_cases hf0 : f0 = []
    · subst hf0
      exact mergeFields_nil_right r
    · obtain ⟨⟨ms, hms⟩, ⟨fs, hfs⟩⟩ := mergeLoop_some_typed f0 c0 r hm hf0
      subst hms hfs
      rw [mergeFields_typed] at hm
      simp only [Option.some.injEq] at hm
      rw [← hm]
      exact typed ms fs

/-! ## The leveled functions -/

theorem mergeKvs_typed_state (ctx : Context) (args : List Any) (s : List Field)
    (hs : getKvsFromContext ctx = s.map Any.field) : ∃ r, mergeKvs ctx args = some r := by
  obtain ⟨t, ht⟩ := sweetenFields_typed args
  unfold mergeKvs
  by_cases h0 : (getKvsFromContext ctx).length = 0
  · exact ⟨(sweetenFields args).fields, by simp [h0]⟩
  · exact ⟨(t.foldl mergeStep s).map Any.field, by
      simp only [h0, if_false]; rw [hs, ht, mergeFields_typed]⟩

theorem emitted_gate (global : SugaredLogger) (ctx : LoggerContext) (lvl : Level)
    (call : LogCall) (hc : call.lvl = lvl) :
    emitted global ctx (if Enabled (FromContext global ctx).level lvl then [call] else []) =
      if (FromContext global ctx).level ≤ lvl then 1 else 0 := by
  unfold emitted
  by_cases h : (FromContext global ctx).level ≤ lvl
  · simp [Enabled, h, SugaredLogger.write, hc]
  · simp [Enabled, h]

theorem kv_gate (l : SugaredLogger) (lvl : Level) (kvs : Context) (args r : List Any)
    (mk : List Any → LogCall) (hr : mergeKvs kvs args = some r) :
    (if Enabled l.level lvl then (mergeKvs kvs args).map (fun m => [mk m]) else some []) =
      some (if Enabled l.level lvl then [mk r] else []) := by
  cases Enabled l.level lvl <;> simp [hr]

/-- C15: in a context reached from the state-free root by `AddKV` calls, whatever logger
the context or the global variable holds, each of `Debug`, `Debugf`, `DebugKV`, `Info`,
`Infof`, `InfoKV`, `Warn`, `Warnf`, `WarnKV`, `Error`, `Errorf`, `ErrorKV` makes the
logger taken from the context write exactly one record when the level threshold of that
logger is at or below the severity of the function, and no record otherwise. -/
theorem leveled_functions_emit (calls : List (List Any)) :
    ∃ kvs : Context, addKVs background calls = some kvs ∧
      ∀ (global : SugaredLogger) (logger : Option SugaredLogger) (span : Option (String × String))
        (message : String) (args : List Any),
        (emitted global ⟨logger, span, kvs⟩ (Debug global ⟨logger, span, kvs⟩ args) =
            if (FromContext global ⟨logger, span, kvs⟩).level ≤ DebugLevel then 1 else 0) ∧
          (emitted global ⟨logger, span, kvs⟩ (Debugf global ⟨logger, span, kvs⟩ message args) =
            if (FromContext global ⟨logger, span, kvs⟩).level ≤ DebugLevel then 1 else 0) ∧
          (∃ cs, DebugKV global ⟨logger, span, kvs⟩ message args = some cs ∧
            emitted global ⟨logger, span, kvs⟩ cs =
              if (FromContext global ⟨logger, span, kvs⟩).level ≤ DebugLevel then 1 else 0) ∧
          (emitted global ⟨logger, span, kvs⟩ (Info global ⟨logger, span, kvs⟩ args) =
            if (FromContext global ⟨logger, span, kvs⟩).level ≤ InfoLevel then 1 else 0) ∧
          (emitted global ⟨logger, span, kvs⟩ (Infof global ⟨logger, span, kvs⟩ message args) =
            if (FromContext global ⟨logger, span, kvs⟩).level ≤ InfoLevel then 1 else 0) ∧
          (∃ cs, InfoKV global ⟨logger, span, kvs⟩ message args = some cs ∧
            emitted global ⟨logger, span, kvs⟩ cs =
              if (FromContext global ⟨logger, span, kvs⟩).level ≤ InfoLevel then 1 else 0) ∧
          (emitted global ⟨logger, span, kvs⟩ (Warn global ⟨logger, span, kvs⟩ args) =
            if (FromContext global ⟨logger, span, kvs⟩).level ≤ WarnLevel then 1 else 0) ∧
          (emitted global ⟨logger, span, kvs⟩ (Warnf global ⟨logger, span, kvs⟩ message args) =
            if (FromContext global ⟨logger, span, kvs⟩).level ≤ WarnLevel then 1 else 0) ∧
          (∃ cs, WarnKV global ⟨logger, span, kvs⟩ message args = some cs ∧
            emitted global ⟨logger, span, kvs⟩ cs =
              if (FromContext global ⟨logger, span, kvs⟩).level ≤ WarnLevel then 1 else 0) ∧
          (emitted global ⟨logger, span, kvs⟩ (Error global ⟨logger, span, kvs⟩ args) =
            if (FromContext global ⟨logger, span, kvs⟩).level ≤ ErrorLevel then 1 else 0) ∧
          (emitted global ⟨logger, span, kvs⟩ (Errorf global ⟨logger, span, kvs⟩ message args) =
            if (FromContext global ⟨logger, span, kvs⟩).level ≤ ErrorLevel then 1 else 0) ∧
          (∃ cs, ErrorKV global ⟨logger, span, kvs⟩ message args = some cs ∧
            emitted global ⟨logger, span, kvs⟩ cs =
              if (FromContext global ⟨logger, span, kvs⟩).level ≤ ErrorLevel then 1 else 0) := by
  obtain ⟨kvs, s, hctx, hs, _⟩ := addKVs_preserves_nodup calls background [] rfl (by simp)
  refine ⟨kvs, hctx, ?_⟩
  intro global logger span message args
  obtain ⟨r, hr⟩ := mergeKvs_typed_state kvs args s hs
  refine ⟨emitted_gate _ _ _ _ rfl, emitted_gate _ _ _ _ rfl, ⟨_, kv_gate _ _ _ _ _ _ hr, emitted_gate _ _ _ _ rfl⟩,
    emitted_gate _ _ _ _ rfl, emitted_gate _ _ _ _ rfl, ⟨_, kv_gate _ _ _ _ _ _ hr, emitted_gate _ _ _ _ rfl⟩,
    emitted_gate _ _ _ _ rfl, emitted_gate _ _ _ _ rfl, ⟨_, kv_gate _ _ _ _ _ _ hr, emitted_gate _ _ _ _ rfl⟩,
    emitted_gate _ _ _ _ rfl, emitted_gate _ _ _ _ rfl, ⟨_, kv_gate _ _ _ _ _ _ hr, emitted_gate _ _ _ _ rfl⟩⟩

/-- C18 fails on the code: `Fatalf` hands the logger the format and one further argument,
the whole slice of the caller, while `Debugf`, `Infof`, `Warnf`, `Errorf` and `Panicf` hand
it the format and the arguments of the caller one by one; the two never coincide. -/
theorem Fatalf_passes_slice (global : SugaredLogger) (ctx : LoggerContext) (format : String)
    (args : List Any) :
    Fatalf global ctx format args = [LogCall.printf FatalLevel format [Arg.slice args]] ∧
      Panicf global ctx format args = [LogCall.printf PanicLevel format (args.map Arg.val)] ∧
      (∀ call ∈ Debugf global ctx format args ++ Infof global ctx format args ++
          Warnf global ctx format args ++ Errorf global ctx format args,
        call.args = args.map Arg.val) ∧
      [Arg.slice args] ≠ args.map Arg.val := by
  refine ⟨rfl, rfl, ?_, ?_⟩
  · intro call hcall
    simp only [List.mem_append, Debugf, Infof, Warnf, Errorf] at hcall
    rcases hcall with ((h | h) | h) | h <;>
      (split at h
       · simp only [List.mem_singleton] at h; subst h; rfl
       · simp at h)
  · cases args with
    | nil => simp
    | cons x xs => simp

/-- C18 at a concrete call: `Fatalf(ctx, "%s-%s", "a", "b")` calls the logger with the
single argument `["a", "b"]`, `Panicf` with the two arguments `"a"` and `"b"`. -/
theorem Fatalf_wraps_arguments :
    Fatalf ⟨4, []⟩ ⟨none, none, background⟩ "%s-%s" [Any.str "a", Any.str "b"] =
        [LogCall.printf FatalLevel "%s-%s" [Arg.slice [Any.str "a", Any.str "b"]]] ∧
      Panicf ⟨4, []⟩ ⟨none, none, background⟩ "%s-%s" [Any.str "a", Any.str "b"] =
        [LogCall.printf PanicLevel "%s-%s" [Arg.val (Any.str "a"), Arg.val (Any.str "b")]] := by
  decide

end Logger
